import Mathlib

/-!
# Segmented buffer (`partition.go`)

A shallow embedding of the `partition` type of package `buffer`: a byte stream
stitched together from fixed-capacity chunks that are taken from a pool as the
stream grows and handed back as it is drained.

The file `partition.go` is embedded function by function.  The chunk
(`memory`), the chunk list (`Push`, `Pop`), the pool (`Get`, `Put`) and the
helpers `Gap`, `Empty`, `Full` live in other files of the package; they are
modelled from the collaborator contracts of the specification (section 6).

Loops that the Go code runs until a condition holds are given a fuel argument:
`none` means that the fuel ran out (or that the Go code hit a runtime fault
and produced no result), `some r` that the call returned `r`.
-/

namespace Buffer

/-- One byte, a value in `0..255`. -/
abbrev Byte := Fin 256

/-- Error values seen by callers of the buffer: `io.EOF`, `io.ErrShortWrite`,
the error of `WriteByIndex` for a payload larger than one chunk, and the
error handed over by a failing `Pool.Get`. -/
inductive Err where
  | EOF
  | ErrShortWrite
  | oversize
  | poolErr
deriving DecidableEq, Repr

/-- Modelled from the spec: the chunk type `memory` (declared outside `partition.go`),
a bounded byte container with a fixed capacity `N` and the bytes that are
resident (written and not yet read) in `data`.  The field `id` is the
identity of the chunk handle, used to follow a chunk between the pool and the list. -/
structure memory where
  id : Nat
  N : Nat
  data : List Byte
deriving DecidableEq, Repr

/-- Modelled from the spec: `Length()` of a chunk, its number of resident bytes. -/
def memory.Len (m : memory) : Nat := m.data.length

/-- Modelled from the spec: `Capacity()` of a chunk, fixed and pool-wide. -/
def memory.Cap (m : memory) : Nat := m.N

/-- Modelled from the spec: `Bytes()`, the read-only view of the resident bytes. -/
def memory.Bytes (m : memory) : List Byte := m.data

/-- Modelled from the spec: `Reset()` of a chunk discards the content; the length
becomes 0 and the capacity is unchanged. -/
def memory.Reset (m : memory) : memory := { m with data := [] }

/-- Modelled from the spec: the free room of a chunk (helper `Gap`, declared outside
`partition.go`), capacity minus length. -/
def Gap (m : memory) : Nat := m.Cap - m.Len

/-- Modelled from the spec: helper `Empty` (declared outside `partition.go`), true when
the chunk has no unread bytes remaining. -/
def Empty (m : memory) : Bool := m.Len == 0

/-- Modelled from the spec: helper `Full` (declared outside `partition.go`), true when
the chunk is at full capacity. -/
def Full (m : memory) : Bool := Gap m == 0

/-- The Go builtin `copy(dst, src)`: overwrites the first `min (len dst) (len src)`
elements of `dst` and returns their number. -/
def copy (dst src : List Byte) : List Byte × Nat :=
  (src.take dst.length ++ dst.drop src.length, min dst.length src.length)

/-- Modelled from the spec: `Read(dest)` of a chunk (declared outside `partition.go`).
It moves as many resident bytes as fit to the front of `dest` and removes them
from the chunk; a chunk without resident bytes reports the status "drained"
(`io.EOF`) when `dest` has room.  Result: chunk, destination, count, status. -/
def memory.Read (m : memory) (p : List Byte) : memory × List Byte × Nat × Option Err :=
  if m.data.length = 0 then
    if p.length = 0 then (m, p, 0, none) else (m, p, 0, some Err.EOF)
  else
    let r := copy p m.data
    ({ m with data := m.data.drop r.2 }, r.1, r.2, none)

/-- Modelled from the spec: `Write(src)` of a chunk (declared outside `partition.go`).
It appends as many bytes of `src` as the free room takes; when not all of
`src` fits the status is "chunk full, short write" (`io.ErrShortWrite`).
Result: chunk, count, status. -/
def memory.Write (m : memory) (p : List Byte) : memory × Nat × Option Err :=
  let n := min (Gap m) p.length
  ({ m with data := m.data ++ p.take n }, n,
    if Gap m < p.length then some Err.ErrShortWrite else none)

/-- Modelled from the spec: the chunk pool (type `Pool` and `memPool`, declared outside
`partition.go`).  `N` is the fixed chunk capacity.  `budget` says how many
calls of `Get` still succeed (`none`: `Get` never fails).  `gets` counts the
chunks handed out and is the identity of the next one; `puts` lists the
identities of the chunks given back, oldest first. -/
structure Pool where
  N : Nat
  budget : Option Nat
  gets : Nat
  puts : List Nat
deriving DecidableEq, Repr

/-- Modelled from the spec: `Get()` returns an empty chunk of the pool's fixed capacity
`N`, or an error if none is available. -/
def Pool.Get (pl : Pool) : Except Err memory × Pool :=
  match pl.budget with
  | some 0 => (Except.error Err.poolErr, pl)
  | some (b + 1) =>
    (Except.ok ⟨pl.gets, pl.N, []⟩, { pl with budget := some b, gets := pl.gets + 1 })
  | none => (Except.ok ⟨pl.gets, pl.N, []⟩, { pl with gets := pl.gets + 1 })

/-- Modelled from the spec: `Put(chunk)` takes a chunk back for reuse. -/
def Pool.Put (pl : Pool) (c : memory) : Pool := { pl with puts := pl.puts ++ [c.id] }

/-- The segmented buffer: `type partition struct { List; Pool }`. -/
structure partition where
  list : List memory
  pool : Pool
deriving DecidableEq, Repr

/-- Modelled from the spec: `PushTail` of the chunk list (method `Push`, declared outside
`partition.go`). -/
def partition.Push (buf : partition) (c : memory) : partition :=
  { buf with list := buf.list ++ [c] }

/-- `NewPartition(pool, buffers...)`. -/
def NewPartition (pool : Pool) (buffers : List memory) : partition :=
  { list := buffers, pool := pool }

/-- `GetDataLen`: the sum of `len(src.Bytes())` over the chunks of the list. -/
def partition.GetDataLen (buf : partition) : Nat :=
  buf.list.foldl (fun dataLen v => dataLen + v.Bytes.length) 0

/-- The result of `ReadPeek` and `ReadPeekByIndex`: the receiver after the call,
the returned slice (`none` is Go's `nil`), the count and the error. -/
structure PeekResult where
  buf : partition
  data : Option (List Byte)
  n : Nat
  err : Option Err
deriving DecidableEq, Repr

/-- `ReadPeekByIndex(partitionIndex)`, for a non-negative index. -/
def partition.ReadPeekByIndex (buf : partition) (partitionIndex : Nat) : PeekResult :=
  if h : buf.list.length ≤ partitionIndex then
    ⟨buf, none, 0, some Err.EOF⟩
  else
    let src := buf.list.get ⟨partitionIndex, Nat.lt_of_not_le h⟩
    let data := List.replicate src.Len (0 : Byte)
    let r := copy data src.Bytes
    ⟨buf, some r.1, r.2, none⟩

/-- The result of `Read`: the receiver after the call, the destination slice
after the call, the count `n` and the error. -/
structure ReadResult where
  buf : partition
  dest : List Byte
  n : Nat
  err : Option Err
deriving DecidableEq, Repr

/-- The loop of `Read`.  `done` is the part of the destination in front of the
slice `p` (Go re-slices `p = p[m:]`), `n` the running count. -/
def partition.ReadLoop : Nat → partition → List Byte → List Byte → Nat → Option ReadResult
  | 0, _, _, _, _ => none
  | fuel + 1, buf, done, p, n =>
    if p.length > 0 then
      match buf.list with
      | [] => some ⟨buf, done ++ p, n, some Err.EOF⟩
      | buffer :: rest =>
        if Empty buffer then
          -- buf.Pool.Put(buf.Pop())
          partition.ReadLoop fuel { list := rest, pool := buf.pool.Put buffer } done p n
        else
          let r := buffer.Read p
          let buf1 : partition := { buf with list := r.1 :: rest }
          let m := r.2.2.1
          let er := r.2.2.2
          if er ≠ none ∧ er ≠ some Err.EOF then
            some ⟨buf1, done ++ r.2.1, n + m, er⟩
          else
            partition.ReadLoop fuel buf1 (done ++ r.2.1.take m) (r.2.1.drop m) (n + m)
    else
      some ⟨buf, done ++ p, n, none⟩

/-- `Read(p)`: consume from the front of the stream into `p`. -/
def partition.Read (fuel : Nat) (buf : partition) (p : List Byte) : Option ReadResult :=
  partition.ReadLoop fuel buf [] p 0

/-- The loop of `ReadPeek` over the chunks from position `i` on. -/
def partition.ReadPeekLoop : List memory → List Byte → List Byte → Nat → List Byte × Nat
  | [], done, p, n => (done ++ p, n)
  | src :: rest, done, p, n =>
    let r := copy p src.Bytes
    let m := r.2
    if m = 0 then (done ++ r.1, n)
    else partition.ReadPeekLoop rest (done ++ r.1.take m) (r.1.drop m) (n + m)

/-- `ReadPeek()`: a copy of all resident bytes. -/
def partition.ReadPeek (buf : partition) : PeekResult :=
  if buf.list.length = 0 then
    ⟨buf, none, 0, some Err.EOF⟩
  else
    let data := List.replicate buf.GetDataLen (0 : Byte)
    let r := partition.ReadPeekLoop buf.list [] data 0
    ⟨buf, some r.1, r.2, none⟩

/-- The result of `Write` and `WriteByIndex`: the receiver after the call, the
count `n` and the error. -/
structure WriteResult where
  buf : partition
  n : Nat
  err : Option Err
deriving DecidableEq, Repr

/-- The inner loop of `WriteByIndex`: `k` times `Get` and `Push`, stopping at
the first error of the pool. -/
def partition.growLoop : Nat → partition → Option Err × partition
  | 0, buf => (none, buf)
  | k + 1, buf =>
    match buf.pool.Get with
    | (Except.error err, pl) => (some err, { buf with pool := pl })
    | (Except.ok next, pl) => partition.growLoop k ({ buf with pool := pl }.Push next)

/-- The constant `math.MaxInt64`. -/
def MaxInt64 : Int := 9223372036854775807

/-- The constant `math.MinInt64`. -/
def MinInt64 : Int := -9223372036854775808

/-- The sum `d + 1` in Go's `int64`, for `d` in the range of `int64`: it wraps
around from `math.MaxInt64` to `math.MinInt64`. -/
def int64Succ (d : Int) : Int := if d = MaxInt64 then MinInt64 else d + 1

/-- The bound `off-int64(lenList)+1` of the inner loop of `WriteByIndex`,
computed in `int64`.  `off` and `int64(lenList)` are `int64` values that are
not negative, so their difference is in the range of `int64`; adding 1 wraps
around when the difference is `math.MaxInt64`. -/
def growBound (off lenList : Nat) : Int := int64Succ ((off : Int) - (lenList : Int))

/-- The outer loop of `WriteByIndex`; `lenList` is the length of the list taken
once before the loop. -/
def partition.WriteByIndexLoop (lenList : Nat) (off : Nat) :
    Nat → partition → List Byte → Nat → Option WriteResult
  | 0, _, _, _ => none
  | fuel + 1, buf, p, n =>
    if p.length > 0 then
      -- for i = 0; i < off-int64(lenList)+1; i++
      match partition.growLoop (growBound off lenList).toNat buf with
      | (some err, buf1) => some ⟨buf1, n, some err⟩
      | (none, buf1) =>
        match buf1.list[off]? with
        | none => none
        | some buffer =>
          let r := buffer.Reset.Write p
          let buf2 : partition := { buf1 with list := buf1.list.set off r.1 }
          let m := r.2.1
          let er := r.2.2
          if er = some Err.ErrShortWrite then
            partition.WriteByIndexLoop lenList off fuel buf2 (p.drop m) (n + m)
          else if er ≠ none then
            some ⟨buf2, n + m, er⟩
          else
            partition.WriteByIndexLoop lenList off fuel buf2 (p.drop m) (n + m)
    else
      some ⟨buf, n, none⟩

/-- `WriteByIndex(p, off)`, for an index `off` that is not negative (an `int64`
value, so at most `math.MaxInt64`). -/
def partition.WriteByIndex (fuel : Nat) (buf : partition) (p : List Byte) (off : Nat) :
    Option WriteResult :=
  if buf.pool.N < p.length then
    some ⟨buf, 0, some Err.oversize⟩
  else
    partition.WriteByIndexLoop buf.list.length off fuel buf p 0

/-- The loop of `Write`. -/
def partition.WriteLoop : Nat → partition → List Byte → Nat → Option WriteResult
  | 0, _, _, _ => none
  | fuel + 1, buf, p, n =>
    if p.length > 0 then
      let first : Option Err × partition :=
        if buf.list.length = 0 then
          match buf.pool.Get with
          | (Except.error err, pl) => (some err, { buf with pool := pl })
          | (Except.ok next, pl) => (none, { buf with pool := pl }.Push next)
        else (none, buf)
      match first with
      | (some err, buf1) => some ⟨buf1, n, some err⟩
      | (none, buf1) =>
        match buf1.list.getLast? with
        | none => none
        | some buffer =>
          if Full buffer then
            match buf1.pool.Get with
            | (Except.error err, pl) => some ⟨{ buf1 with pool := pl }, n, some err⟩
            | (Except.ok next, pl) =>
              partition.WriteLoop fuel ({ buf1 with pool := pl }.Push next) p n
          else
            let r := buffer.Write p
            let buf2 : partition :=
              { buf1 with list := buf1.list.set (buf1.list.length - 1) r.1 }
            let m := r.2.1
            let er := r.2.2
            if er = some Err.ErrShortWrite then
              partition.WriteLoop fuel buf2 (p.drop m) (n + m)
            else if er ≠ none then
              some ⟨buf2, n + m, er⟩
            else
              partition.WriteLoop fuel buf2 (p.drop m) (n + m)
    else
      some ⟨buf, n, none⟩

/-- `Write(p)`: append `p` to the end of the stream. -/
def partition.Write (fuel : Nat) (buf : partition) (p : List Byte) : Option WriteResult :=
  partition.WriteLoop fuel buf p 0

/-- The loop of `Reset`: `buf.Pool.Put(buf.Pop())` while the list is not empty. -/
def partition.ResetLoop : List memory → Pool → partition
  | [], pl => ⟨[], pl⟩
  | c :: rest, pl => partition.ResetLoop rest (pl.Put c)

/-- `Reset()`: hand every chunk back to the pool, front to back. -/
def partition.Reset (buf : partition) : partition :=
  partition.ResetLoop buf.list buf.pool

/-- The resident bytes of a list of chunks, front to back. -/
def contentOf (l : List memory) : List Byte := (l.map memory.Bytes).flatten

/-- The stream content of a buffer: the resident bytes of all chunks, front to back. -/
def partition.content (buf : partition) : List Byte := contentOf buf.list

/-- An empty buffer over a fresh pool of chunk capacity `N` whose `Get` never fails. -/
def emptyBuf (N : Nat) : partition := NewPartition ⟨N, none, 0, []⟩ []

/-- The free room of the last chunk of a list, 0 for the empty list. -/
def tailGap (l : List memory) : Nat :=
  match l.getLast? with
  | none => 0
  | some c => Gap c

/-- The list `l` after its last chunk has taken the first bytes of `p`, as many
as its free room allows. -/
def fillTail (l : List memory) (p : List Byte) : List memory :=
  match l.getLast? with
  | none => []
  | some c => l.dropLast ++ [{ c with data := c.data ++ p.take (Gap c) }]

/-- The number of chunks of capacity `N` that `len` bytes occupy. -/
def chunksFor (N len : Nat) : Nat := (len + N - 1) / N

/-- The chunks with identities `g`, `g + 1`, ... and capacity `N` that hold the
bytes `q`, each one filled before the next one starts. -/
def freshChunks (N g : Nat) (q : List Byte) : List memory :=
  (List.range (chunksFor N q.length)).map fun j => ⟨g + j, N, (q.drop (j * N)).take N⟩

/-- What one call of the loop of `Read` achieves, as a relation between the
state `buf`, the destination `done ++ p`, the count `n` at entry and the
result `r`; `k` is the number of chunks popped and put back. -/
structure ReadPost (buf : partition) (done p : List Byte) (n : Nat) (r : ReadResult) :
    Prop where
  n_eq : r.n = n + min p.length buf.content.length
  dest_eq : r.dest = done ++ (buf.content.take p.length ++ p.drop buf.content.length)
  content_eq : r.buf.content = buf.content.drop p.length
  err_eq : r.err = if buf.content.length < p.length then some Err.EOF else none
  eof_nil : r.err = some Err.EOF → r.buf.list = []
  ok_nil : r.err = none → (r.buf.list = [] ↔ buf.list = [])
  frame : ∃ k, k ≤ buf.list.length ∧
    r.buf.pool = { buf.pool with puts := buf.pool.puts ++ (buf.list.take k).map memory.id } ∧
    r.buf.list.map memory.id = (buf.list.drop k).map memory.id ∧
    r.buf.list.tail = (buf.list.drop k).tail

/-- A run of `Read` calls, one per destination of `ds`, each on the buffer the
call before it left. -/
def readAll (fuel : Nat) : partition → List (List Byte) → Option partition
  | buf, [] => some buf
  | buf, p :: ps =>
    match buf.Read fuel p with
    | none => none
    | some r => readAll fuel r.buf ps

/-- The bookkeeping of a session over a fresh pool: `G` chunks were handed
out, the chunks given back followed by the chunks of the list are the chunks
`0 .. G - 1` in the order of their acquisition, and only the head chunk of the
list may be drained. -/
structure Session (G : Nat) (s : partition) : Prop where
  gets_eq : s.pool.gets = G
  ids_eq : s.pool.puts ++ s.list.map memory.id = List.range G
  tail_ne : ∀ c ∈ s.list.tail, c.data ≠ []

/-- A peek call: `ReadPeek()` or `ReadPeekByIndex(i)`. -/
inductive PeekCall where
  | all
  | byIndex (i : Nat)
deriving DecidableEq, Repr

/-- The result of one peek call on `buf`. -/
def PeekCall.run (buf : partition) : PeekCall → PeekResult
  | PeekCall.all => buf.ReadPeek
  | PeekCall.byIndex i => buf.ReadPeekByIndex i

/-- The buffer after a run of peek calls, each on the buffer the call before it left. -/
def peekMany : partition → List PeekCall → partition
  | buf, [] => buf
  | buf, c :: cs => peekMany (c.run buf).buf cs

/-- The list `l` after the bytes `x` have been appended to its last chunk. -/
def appendTail (l : List memory) (x : List Byte) : List memory :=
  match l.getLast? with
  | none => []
  | some c => l.dropLast ++ [{ c with data := c.data ++ x }]

/-- What one call of the loop of `Write` achieves whenever it returns, as a
relation between the state `buf`, the input `p`, the count `n` at entry and the
result `r`: `x` are the bytes appended to the former last chunk and `more` the
chunks pushed behind it. -/
structure WritePost (buf : partition) (p : List Byte) (n : Nat) (r : WriteResult) :
    Prop where
  n_ge : n ≤ r.n
  n_le : r.n ≤ n + p.length
  err_cases : (r.err = none ∧ r.n = n + p.length) ∨
    (r.err = some Err.poolErr ∧ r.n < n + p.length ∧ r.buf.pool.budget = some 0)
  puts_eq : r.buf.pool.puts = buf.pool.puts
  N_eq : r.buf.pool.N = buf.pool.N
  grow : ∃ x more, r.buf.list = appendTail buf.list x ++ more ∧
    x ++ contentOf more = p.take (r.n - n) ∧ (buf.list = [] → x = []) ∧
    r.buf.pool.gets = buf.pool.gets + more.length

/-- The part of `q` that a pool with the given budget and chunk capacity `N`
can take into new chunks: all of it when `Get` never fails, the first `b * N`
bytes when `b` calls of `Get` succeed before the first failure. -/
def cutTo (budget : Option Nat) (N : Nat) (q : List Byte) : List Byte :=
  match budget with
  | none => q
  | some b => q.take (b * N)

/-- The result of the loop of `Write` in closed form, for a pool of chunk
capacity at least 1: the last chunk is filled up, the input beyond its free
room goes to new chunks as far as the pool hands them out, and the error is
the error of the pool when input is left over. -/
def writeOutcome (buf : partition) (p : List Byte) (n : Nat) : WriteResult :=
  ⟨⟨fillTail buf.list p ++
      freshChunks buf.pool.N buf.pool.gets
        (cutTo buf.pool.budget buf.pool.N (p.drop (tailGap buf.list))),
    { buf.pool with
      budget := buf.pool.budget.map (fun b => b -
        chunksFor buf.pool.N
          (cutTo buf.pool.budget buf.pool.N (p.drop (tailGap buf.list))).length)
      gets := buf.pool.gets +
        chunksFor buf.pool.N
          (cutTo buf.pool.budget buf.pool.N (p.drop (tailGap buf.list))).length }⟩,
   n + min (tailGap buf.list) p.length +
     (cutTo buf.pool.budget buf.pool.N (p.drop (tailGap buf.list))).length,
   if (cutTo buf.pool.budget buf.pool.N (p.drop (tailGap buf.list))).length
       < (p.drop (tailGap buf.list)).length then some Err.poolErr else none⟩

/-- The states that a buffer over a pool of chunk capacity `N` reaches from the
empty buffer by `Write`, `Read` and `Reset` calls that return (a `Write` with
enough fuel for its loop), the pool being free to change between calls how many
chunks it still hands out. -/
inductive Reachable (N : Nat) : partition → Prop where
  | init (pl : Pool) (hN : pl.N = N) : Reachable N (NewPartition pl [])
  | avail (s : partition) (b : Option Nat) (h : Reachable N s) :
      Reachable N { s with pool := { s.pool with budget := b } }
  | write (s : partition) (fuel : Nat) (p : List Byte) (r : WriteResult)
      (h : Reachable N s) (hfuel : 2 * p.length + 2 ≤ fuel)
      (hw : s.Write fuel p = some r) : Reachable N r.buf
  | read (s : partition) (fuel : Nat) (p : List Byte) (r : ReadResult)
      (h : Reachable N s) (hr : s.Read fuel p = some r) : Reachable N r.buf
  | reset (s : partition) (h : Reachable N s) : Reachable N s.Reset

/-- The shape of the chunk list that `Write`, `Read` and `Reset` maintain: the
pool and every chunk have capacity `N`, no chunk holds more than `N` bytes, and
every chunk strictly between the head and the last chunk holds exactly `N`. -/
structure ChunkInv (N : Nat) (s : partition) : Prop where
  pool_N : s.pool.N = N
  caps : ∀ c ∈ s.list, c.N = N ∧ c.data.length ≤ N
  inner_full : ∀ c ∈ s.list.dropLast.tail, c.data.length = N

/-! ## Chunk operations -/

theorem contentOf_nil : contentOf [] = [] := rfl

theorem contentOf_cons (c : memory) (l : List memory) :
    contentOf (c :: l) = c.data ++ contentOf l := by
  simp [contentOf, memory.Bytes]

theorem contentOf_append (l₁ l₂ : List memory) :
    contentOf (l₁ ++ l₂) = contentOf l₁ ++ contentOf l₂ := by
  simp [contentOf]

theorem copy_fst_take (dst src : List Byte) :
    (copy dst src).1.take (copy dst src).2 = src.take dst.length := by
  simp only [copy]
  rw [List.take_append_of_le_length (by simp [Nat.min_comm])]
  exact List.take_of_length_le (by simp [Nat.min_comm])

theorem copy_fst_drop (dst src : List Byte) :
    (copy dst src).1.drop (copy dst src).2 = dst.drop src.length := by
  simp only [copy]
  rw [List.drop_append_eq_append_drop]
  have h : (List.take dst.length src).length = min dst.length src.length := by simp
  rw [h, Nat.sub_self, List.drop_zero]
  rw [List.drop_eq_nil_of_le (by simp [Nat.min_comm])]
  simp

/-! ## `Read` -/

theorem ReadLoop_spec : ∀ (fuel : Nat) (buf : partition) (done p : List Byte) (n : Nat),
    p.length + buf.list.length + 1 ≤ fuel →
    ∃ r, partition.ReadLoop fuel buf done p n = some r ∧ ReadPost buf done p n r := by
  intro fuel
  induction fuel with
  | zero => intro buf done p n h; omega
  | succ fuel ih =>
    intro buf done p n h
    obtain ⟨l, pl⟩ := buf
    rw [partition.ReadLoop]
    by_cases hp : p.length > 0
    · rw [if_pos hp]
      cases l with
      | nil =>
        refine ⟨_, rfl, ?_⟩
        constructor <;> simp [partition.content, contentOf_nil]
        omega
      | cons b rest =>
        simp only
        by_cases he : Empty b = true
        · rw [if_pos he]
          have hb : b.data = [] := by
            simpa [Empty, memory.Len] using he
          obtain ⟨r, hr, post⟩ := ih ⟨rest, pl.Put b⟩ done p n (by simp at h ⊢; omega)
          refine ⟨r, hr, ?_⟩
          have hc : partition.content ⟨b :: rest, pl⟩ = partition.content ⟨rest, pl.Put b⟩ := by
            simp [partition.content, contentOf_cons, hb]
          obtain ⟨h1, h2, h3, h4, h5, h6, k, hk, hpool, hids, htail⟩ := post
          refine ⟨by rw [hc]; exact h1, by rw [hc]; exact h2, by rw [hc]; exact h3,
            by rw [hc]; exact h4, h5, ?_, k + 1, ?_, ?_, ?_, ?_⟩
          · intro hnone
            have hrest : rest ≠ [] := by
              intro hnil
              rw [h4, hnil] at hnone
              simp only [partition.content, contentOf_nil, List.length_nil] at hnone
              rw [if_pos hp] at hnone
              exact absurd hnone (by simp)
            simp only [reduceCtorEq, iff_false]
            intro hnil
            exact hrest ((h6 hnone).1 hnil)
          · simp at hk ⊢; omega
          · rw [hpool]; simp [Pool.Put]
          · simpa using hids
          · simpa using htail
        · rw [if_neg he]
          have hb : 0 < b.data.length := by
            simp [Empty, memory.Len] at he
            exact List.length_pos.mpr he
          have hread : b.Read p =
              ({ b with data := b.data.drop (copy p b.data).2 }, (copy p b.data).1,
                (copy p b.data).2, none) := by
            simp only [memory.Read]
            rw [if_neg (by omega)]
          simp only [hread, ne_eq, not_true_eq_false, false_and, if_false]
          rw [copy_fst_take, copy_fst_drop]
          have hm : (copy p b.data).2 = min p.length b.data.length := rfl
          rw [hm]
          have hcase : p.length ≤ b.data.length ∨ b.data.length < p.length := by omega
          rcases hcase with hc | hc
          · have e1 : min p.length b.data.length = p.length := Nat.min_eq_left hc
            have e2 : p.drop b.data.length = [] := List.drop_eq_nil_of_le hc
            rw [e1, e2]
            obtain ⟨r, hr, post⟩ := ih
              ⟨{ b with data := b.data.drop p.length } :: rest, pl⟩
              (done ++ b.data.take p.length) [] (n + p.length) (by simp at h ⊢; omega)
            refine ⟨r, hr, ?_⟩
            obtain ⟨h1, h2, h3, h4, h5, h6, k, hk, hpool, hids, htail⟩ := post
            simp only [partition.content, contentOf_cons, List.length_append, List.length_drop,
              List.length_nil, Nat.zero_min, Nat.add_zero, List.take_zero, List.drop_nil,
              List.append_nil, List.drop_zero, Nat.not_lt_zero, if_false] at h1 h2 h3 h4
            refine ⟨?_, ?_, ?_, ?_, h5, ?_, k, ?_, ?_, ?_, ?_⟩
            · simp only [partition.content, contentOf_cons, List.length_append]
              have e3 : min p.length (b.data.length + (contentOf rest).length) = p.length :=
                Nat.min_eq_left (by omega)
              rw [h1, e3]
            · simp only [partition.content, contentOf_cons, List.length_append]
              have e3 : p.drop (b.data.length + (contentOf rest).length) = [] :=
                List.drop_eq_nil_of_le (by omega)
              rw [h2, List.take_append_of_le_length hc, e3]
              simp
            · simp only [partition.content, contentOf_cons]
              rw [h3, List.drop_append_of_le_length hc]
            · simp only [partition.content, contentOf_cons, List.length_append]
              rw [h4, if_neg (by omega)]
            · intro hnone
              have := h6 hnone
              simp only [reduceCtorEq, iff_false] at this ⊢
              exact this
            · simpa using hk
            · rw [hpool]
              cases k <;> simp
            · rw [hids]
              cases k <;> simp
            · rw [htail]
              cases k <;> simp
          · have e1 : min p.length b.data.length = b.data.length := Nat.min_eq_right (by omega)
            have e2 : b.data.take p.length = b.data := List.take_of_length_le (by omega)
            rw [e1, e2, List.drop_length]
            obtain ⟨r, hr, post⟩ := ih
              ⟨{ b with data := [] } :: rest, pl⟩
              (done ++ b.data) (p.drop b.data.length) (n + b.data.length)
              (by simp at h ⊢; omega)
            refine ⟨r, hr, ?_⟩
            obtain ⟨h1, h2, h3, h4, h5, h6, k, hk, hpool, hids, htail⟩ := post
            simp only [partition.content, contentOf_cons, List.length_append, List.length_drop,
              List.length_nil, List.nil_append, Nat.zero_add, List.drop_drop] at h1 h2 h3 h4
            have hmin : min (p.length - b.data.length) (contentOf rest).length + b.data.length
                = min p.length (b.data.length + (contentOf rest).length) := by
              by_cases hlt : p.length - b.data.length ≤ (contentOf rest).length
              · have e3 : min p.length (b.data.length + (contentOf rest).length) = p.length :=
                  Nat.min_eq_left (by omega)
                rw [Nat.min_eq_left hlt, e3]; omega
              · have e3 : min p.length (b.data.length + (contentOf rest).length)
                    = b.data.length + (contentOf rest).length := Nat.min_eq_right (by omega)
                have e4 : min (p.length - b.data.length) (contentOf rest).length
                    = (contentOf rest).length := Nat.min_eq_right (by omega)
                rw [e3, e4]; omega
            refine ⟨?_, ?_, ?_, ?_, h5, ?_, k, ?_, ?_, ?_, ?_⟩
            · simp only [partition.content, contentOf_cons, List.length_append]
              rw [h1, ← hmin]; omega
            · simp only [partition.content, contentOf_cons, List.length_append]
              rw [h2, List.take_append_eq_append_take, e2]
              simp [List.append_assoc, Nat.add_comm]
            · simp only [partition.content, contentOf_cons]
              have e3 : b.data.drop p.length = [] := List.drop_eq_nil_of_le (by omega)
              rw [h3, List.drop_append_eq_append_drop, e3]
              simp
            · simp only [partition.content, contentOf_cons, List.length_append]
              rw [h4]
              by_cases hlt : b.data.length + (contentOf rest).length < p.length
              · rw [if_pos (by omega), if_pos hlt]
              · rw [if_neg (by omega), if_neg hlt]
            · intro hnone
              have := h6 hnone
              simp only [reduceCtorEq, iff_false] at this ⊢
              exact this
            · simpa using hk
            · rw [hpool]
              cases k <;> simp
            · rw [hids]
              cases k <;> simp
            · rw [htail]
              cases k <;> simp
    · rw [if_neg hp]
      have hp0 : p = [] := by
        cases p with
        | nil => rfl
        | cons a t => simp at hp
      subst hp0
      refine ⟨_, rfl, ?_⟩
      constructor <;> simp
      exact ⟨0, by simp⟩

/-- `Read` with enough fuel returns, and its result is related to the buffer and
the destination by `ReadPost`. -/
theorem Read_spec (fuel : Nat) (buf : partition) (p : List Byte)
    (h : p.length + buf.list.length + 1 ≤ fuel) :
    ∃ r, buf.Read fuel p = some r ∧ ReadPost buf [] p 0 r :=
  ReadLoop_spec fuel buf [] p 0 h

/-! ## `Write` -/

theorem take_split (p : List Byte) (m N : Nat) (h : m ≤ N) :
    p.take m ++ (p.drop m).take (N - m) = p.take N := by
  have := List.take_add p m (N - m)
  rw [← this]
  congr 1
  omega

theorem drop_split (p : List Byte) (m N : Nat) (h : m ≤ N) :
    (p.drop m).drop (N - m) = p.drop N := by
  rw [List.drop_drop]
  congr 1
  omega

theorem chunksFor_zero (N : Nat) : chunksFor N 0 = 0 := by
  unfold chunksFor
  rcases Nat.eq_zero_or_pos N with h | h
  · subst h; simp
  · exact Nat.div_eq_of_lt (by omega)

theorem chunksFor_succ (N len : Nat) (hN : 1 ≤ N) (hl : 0 < len) :
    chunksFor N len = chunksFor N (len - N) + 1 := by
  unfold chunksFor
  by_cases h : N ≤ len
  · have e : len + N - 1 = (len - N + N - 1) + N := by omega
    rw [e, Nat.add_div_right _ (by omega)]
  · have e1 : len - N = 0 := by omega
    rw [e1]
    have e2 : (0 + N - 1) / N = 0 := Nat.div_eq_of_lt (by omega)
    rw [e2]
    have e3 : len + N - 1 = (len - 1) + N := by omega
    rw [e3, Nat.add_div_right _ (by omega), Nat.div_eq_of_lt (by omega)]

theorem freshChunks_nil (N g : Nat) : freshChunks N g [] = [] := by
  simp [freshChunks, chunksFor_zero]

theorem freshChunks_cons (N g : Nat) (q : List Byte) (hN : 1 ≤ N) (hq : 0 < q.length) :
    freshChunks N g q = ⟨g, N, q.take N⟩ :: freshChunks N (g + 1) (q.drop N) := by
  unfold freshChunks
  rw [chunksFor_succ N q.length hN hq, List.range_succ_eq_map]
  simp only [List.map_cons, List.map_map, List.length_drop, Nat.zero_mul, List.drop_zero,
    Nat.add_zero]
  congr 1
  apply List.map_congr_left
  intro j _
  simp only [Function.comp, List.drop_drop, memory.mk.injEq, and_true]
  constructor
  · omega
  · rw [Nat.succ_mul, Nat.add_comm (j * N) N]
    exact ⟨trivial, rfl⟩

theorem getLast?_concat_chunk (l : List memory) (c : memory) :
    (l ++ [c]).getLast? = some c := by
  simp

theorem set_last_concat (l : List memory) (c d : memory) :
    (l ++ [c]).set ((l ++ [c]).length - 1) d = l ++ [d] := by
  simp

theorem tailGap_nil : tailGap [] = 0 := rfl

theorem tailGap_concat (l : List memory) (c : memory) : tailGap (l ++ [c]) = Gap c := by
  simp [tailGap]

theorem fillTail_nil (p : List Byte) : fillTail [] p = [] := rfl

theorem fillTail_concat (l : List memory) (c : memory) (p : List Byte) :
    fillTail (l ++ [c]) p = l ++ [{ c with data := c.data ++ p.take (Gap c) }] := by
  simp [fillTail]

/-- One turn of the loop of `Write` on an empty list: a chunk is taken from
the pool, pushed and written to. -/
theorem WriteLoop_step_nil (fuel : Nat) (pl : Pool) (p : List Byte) (n : Nat)
    (hb : pl.budget = none) (hN : 1 ≤ pl.N) (hp : 0 < p.length) :
    partition.WriteLoop (fuel + 1) ⟨[], pl⟩ p n =
      partition.WriteLoop fuel
        ⟨[⟨pl.gets, pl.N, p.take (min pl.N p.length)⟩], { pl with gets := pl.gets + 1 }⟩
        (p.drop (min pl.N p.length)) (n + min pl.N p.length) := by
  rw [partition.WriteLoop]
  have hfull : Full ⟨pl.gets, pl.N, []⟩ = false := by
    simp [Full, Gap, memory.Cap, memory.Len]; omega
  simp [hp, Pool.Get, hb, partition.Push, hfull, memory.Write, Gap, memory.Cap, memory.Len]
  intro h1 h2
  omega

/-- One turn of the loop of `Write` when the last chunk is full: a chunk is
taken from the pool and pushed. -/
theorem WriteLoop_step_full (fuel : Nat) (l : List memory) (c : memory) (pl : Pool)
    (p : List Byte) (n : Nat) (hb : pl.budget = none) (hp : 0 < p.length)
    (hc : Gap c = 0) :
    partition.WriteLoop (fuel + 1) ⟨l ++ [c], pl⟩ p n =
      partition.WriteLoop fuel
        ⟨l ++ [c] ++ [⟨pl.gets, pl.N, []⟩], { pl with gets := pl.gets + 1 }⟩ p n := by
  rw [partition.WriteLoop]
  have hfull : Full c = true := by simp [Full, hc]
  simp [hp, Pool.Get, hb, partition.Push, hfull]

/-- One turn of the loop of `Write` when the last chunk has room: it takes as
many bytes as fit. -/
theorem WriteLoop_step_room (fuel : Nat) (l : List memory) (c : memory) (pl : Pool)
    (p : List Byte) (n : Nat) (hp : 0 < p.length) (hc : 0 < Gap c) :
    partition.WriteLoop (fuel + 1) ⟨l ++ [c], pl⟩ p n =
      partition.WriteLoop fuel
        ⟨l ++ [{ c with data := c.data ++ p.take (min (Gap c) p.length) }], pl⟩
        (p.drop (min (Gap c) p.length)) (n + min (Gap c) p.length) := by
  rw [partition.WriteLoop]
  have hfull : Full c = false := by simp [Full]; omega
  simp [hp, hfull, memory.Write]
  intro h1 h2
  omega

/-- The loop of `Write` over a pool that never fails: the last chunk is filled
up, the rest of the input goes to new chunks, each filled before the next. -/
theorem WriteLoop_spec : ∀ (fuel : Nat) (buf : partition) (p : List Byte) (n : Nat),
    buf.pool.budget = none → 1 ≤ buf.pool.N →
    2 * p.length + (if tailGap buf.list = 0 then 2 else 1) ≤ fuel →
    partition.WriteLoop fuel buf p n = some
      ⟨⟨fillTail buf.list p ++
          freshChunks buf.pool.N buf.pool.gets (p.drop (tailGap buf.list)),
        { buf.pool with
          gets := buf.pool.gets + chunksFor buf.pool.N (p.length - tailGap buf.list) }⟩,
       n + p.length, none⟩ := by
  intro fuel
  induction fuel with
  | zero => intro buf p n _ _ h; split at h <;> omega
  | succ fuel ih =>
    intro buf p n hb hN h
    obtain ⟨l, pl⟩ := buf
    simp only at hb hN h ⊢
    by_cases hp : 0 < p.length
    · rcases List.eq_nil_or_concat l with rfl | ⟨l', c, rfl⟩
      · rw [WriteLoop_step_nil fuel pl p n hb hN hp]
        have hm1 : 1 ≤ min pl.N p.length := Nat.le_min.mpr ⟨hN, hp⟩
        have hm2 : min pl.N p.length ≤ p.length := Nat.min_le_right _ _
        have hm3 : min pl.N p.length ≤ pl.N := Nat.min_le_left _ _
        have hm4 : p.take (min pl.N p.length) = p.take pl.N := by
          rw [← List.take_take, List.take_length]
        simp only [tailGap_nil, if_true] at h
        have hg : tailGap [(⟨pl.gets, pl.N, p.take (min pl.N p.length)⟩ : memory)]
            = pl.N - min pl.N p.length := by
          have := tailGap_concat [] (⟨pl.gets, pl.N, p.take (min pl.N p.length)⟩ : memory)
          simp only [List.nil_append] at this
          rw [this]
          simp [Gap, memory.Cap, memory.Len]
        have hft : fillTail [(⟨pl.gets, pl.N, p.take (min pl.N p.length)⟩ : memory)]
            (p.drop (min pl.N p.length)) = [⟨pl.gets, pl.N, p.take pl.N⟩] := by
          have := fillTail_concat [] (⟨pl.gets, pl.N, p.take (min pl.N p.length)⟩ : memory)
            (p.drop (min pl.N p.length))
          simp only [List.nil_append] at this
          rw [this]
          have hgap : Gap (⟨pl.gets, pl.N, p.take (min pl.N p.length)⟩ : memory)
              = pl.N - min pl.N p.length := by
            simp [Gap, memory.Cap, memory.Len]
          rw [hgap, take_split p _ _ hm3]
        rw [ih _ _ _ hb hN (by
          simp only [List.length_drop]
          generalize min pl.N p.length = m at *
          split <;> omega)]
        simp only [tailGap_nil, List.drop_zero, fillTail_nil, List.nil_append, Nat.sub_zero]
        rw [freshChunks_cons pl.N pl.gets p hN hp, chunksFor_succ pl.N p.length hN hp]
        rw [hg, hft, drop_split p _ _ hm3]
        simp only [List.length_drop, List.singleton_append, WriteResult.mk.injEq,
          partition.mk.injEq, Pool.mk.injEq, true_and, and_true]
        generalize min pl.N p.length = m at *
        have a1 : p.length - m - (pl.N - m) = p.length - pl.N := by omega
        have a2 : n + m + (p.length - m) = n + p.length := by omega
        have a3 : pl.gets + 1 + chunksFor pl.N (p.length - pl.N)
            = pl.gets + (chunksFor pl.N (p.length - pl.N) + 1) := by omega
        rw [a1, a2, a3]
      · simp only [List.concat_eq_append] at h ⊢
        by_cases hc : Gap c = 0
        · rw [WriteLoop_step_full fuel l' c pl p n hb hp hc]
          simp only [tailGap_concat, hc, if_true] at h
          have hgap : Gap (⟨pl.gets, pl.N, []⟩ : memory) = pl.N := by
            simp [Gap, memory.Cap, memory.Len]
          rw [ih _ _ _ hb hN (by
            show 2 * p.length +
              (if tailGap (l' ++ [c] ++ [⟨pl.gets, pl.N, []⟩]) = 0 then 2 else 1) ≤ fuel
            rw [tailGap_concat, hgap, if_neg (by omega)]
            omega)]
          simp only [tailGap_concat, fillTail_concat, hgap, hc, List.take_zero, List.append_nil,
            List.drop_zero, Nat.sub_zero, List.nil_append]
          rw [freshChunks_cons pl.N pl.gets p hN hp, chunksFor_succ pl.N p.length hN hp]
          have a3 : pl.gets + 1 + chunksFor pl.N (p.length - pl.N)
              = pl.gets + (chunksFor pl.N (p.length - pl.N) + 1) := by omega
          rw [a3]
          simp
        · have hc1 : 0 < Gap c := Nat.pos_of_ne_zero hc
          rw [WriteLoop_step_room fuel l' c pl p n hp hc1]
          have hm1 : 1 ≤ min (Gap c) p.length := Nat.le_min.mpr ⟨hc1, hp⟩
          have hm2 : min (Gap c) p.length ≤ p.length := Nat.min_le_right _ _
          have hm3 : min (Gap c) p.length ≤ Gap c := Nat.min_le_left _ _
          simp only [tailGap_concat, hc, if_false] at h
          have hgap : Gap ({ c with data := c.data ++ p.take (min (Gap c) p.length) } : memory)
              = Gap c - min (Gap c) p.length := by
            simp only [Gap, memory.Cap, memory.Len, List.length_append, List.length_take]
            rw [Nat.min_assoc, Nat.min_self]
            omega
          rw [ih _ _ _ hb hN (by
            simp only [List.length_drop]
            generalize min (Gap c) p.length = m at *
            split <;> omega)]
          simp only [tailGap_concat, fillTail_concat, hgap, List.append_assoc,
            take_split p _ _ hm3, drop_split p _ _ hm3, List.length_drop]
          generalize min (Gap c) p.length = m at *
          have a1 : p.length - m - (Gap c - m) = p.length - Gap c := by omega
          have a2 : n + m + (p.length - m) = n + p.length := by omega
          rw [a1, a2]
    · have hp0 : p = [] := by
        cases p with
        | nil => rfl
        | cons a t => simp at hp
      subst hp0
      rw [partition.WriteLoop]
      simp only [List.length_nil, Nat.lt_irrefl, if_false, List.drop_nil, freshChunks_nil,
        List.append_nil, Nat.zero_sub, chunksFor_zero, Nat.add_zero, List.take_nil]
      rcases List.eq_nil_or_concat l with rfl | ⟨l', c, rfl⟩
      · simp [fillTail_nil]
      · simp [fillTail_concat, List.concat_eq_append]

/-- `Write` over a pool that never fails, in closed form. -/
theorem Write_spec (fuel : Nat) (buf : partition) (p : List Byte)
    (hb : buf.pool.budget = none) (hN : 1 ≤ buf.pool.N) (h : 2 * p.length + 2 ≤ fuel) :
    buf.Write fuel p = some
      ⟨⟨fillTail buf.list p ++
          freshChunks buf.pool.N buf.pool.gets (p.drop (tailGap buf.list)),
        { buf.pool with
          gets := buf.pool.gets + chunksFor buf.pool.N (p.length - tailGap buf.list) }⟩,
       p.length, none⟩ := by
  have := WriteLoop_spec fuel buf p 0 hb hN (by split <;> omega)
  rw [Nat.zero_add] at this
  exact this

theorem contentOf_freshChunks (N : Nat) (hN : 1 ≤ N) :
    ∀ (len : Nat) (g : Nat) (q : List Byte), q.length = len →
      contentOf (freshChunks N g q) = q := by
  intro len
  induction len using Nat.strong_induction_on with
  | _ len ih =>
    intro g q hq
    by_cases h0 : 0 < q.length
    · rw [freshChunks_cons N g q hN h0, contentOf_cons]
      rw [ih (q.drop N).length (by simp only [List.length_drop]; omega) (g + 1) (q.drop N) rfl]
      exact List.take_append_drop N q
    · have : q = [] := List.length_eq_zero.mp (by omega)
      subst this
      rw [freshChunks_nil, contentOf_nil]

theorem contentOf_fillTail (l : List memory) (p : List Byte) :
    contentOf (fillTail l p) = contentOf l ++ p.take (tailGap l) := by
  rcases List.eq_nil_or_concat l with rfl | ⟨l', c, rfl⟩
  · simp [fillTail_nil, tailGap_nil, contentOf_nil]
  · simp only [List.concat_eq_append]
    rw [fillTail_concat, tailGap_concat, contentOf_append, contentOf_append]
    simp [contentOf, memory.Bytes]

theorem chunksFor_le (N len : Nat) (hN : 1 ≤ N) : chunksFor N len ≤ len := by
  unfold chunksFor
  have h1 : len ≤ len * N := Nat.le_mul_of_pos_right len hN
  have h2 : (len + N - 1) / N < len + 1 := by
    rw [Nat.div_lt_iff_lt_mul (by omega)]
    rw [Nat.add_mul]
    omega
  omega

theorem length_freshChunks (N g : Nat) (q : List Byte) :
    (freshChunks N g q).length = chunksFor N q.length := by
  simp [freshChunks]

/-- The stream content after `Write` over a pool that never fails. -/
theorem Write_content (fuel : Nat) (buf : partition) (p : List Byte)
    (hb : buf.pool.budget = none) (hN : 1 ≤ buf.pool.N) (h : 2 * p.length + 2 ≤ fuel) :
    ∃ r, buf.Write fuel p = some r ∧ r.n = p.length ∧ r.err = none ∧
      r.buf.content = buf.content ++ p := by
  refine ⟨_, Write_spec fuel buf p hb hN h, rfl, rfl, ?_⟩
  simp only [partition.content]
  rw [contentOf_append, contentOf_fillTail, contentOf_freshChunks _ hN _ _ _ rfl,
    List.append_assoc, List.take_append_drop]

/-! ## Claims on `Write` and `Read` -/

/-- C2, `Write` appends: on any buffer with stream content `S`, over a pool of
chunk capacity at least 1 whose `Get` never fails, `Write(B)` returns
`(len(B), nil)` and the stream content afterwards is `S` followed by `B`. -/
theorem Write_appends (buf : partition) (B : List Byte) (fuel : Nat)
    (hget : buf.pool.budget = none) (hN : 1 ≤ buf.pool.N)
    (hfuel : 2 * B.length + 2 ≤ fuel) :
    ∃ r, buf.Write fuel B = some r ∧ r.n = B.length ∧ r.err = none ∧
      r.buf.content = buf.content ++ B :=
  Write_content fuel buf B hget hN hfuel

/-- C3, `Read` consumes a prefix: on any buffer with stream content `S` and any
destination of length `L`, `Read` returns `n = min L (len S)`, the first `n`
bytes of the destination are the first `n` bytes of `S` (the rest of the
destination is untouched), the stream content afterwards is `S` without its
first `n` bytes, and the error is `io.EOF` exactly when `L > len S`, `nil`
otherwise. -/
theorem Read_consumes_front (buf : partition) (dest : List Byte) (fuel : Nat)
    (hfuel : dest.length + buf.list.length + 1 ≤ fuel) :
    ∃ r, buf.Read fuel dest = some r ∧
      r.n = min dest.length buf.content.length ∧
      r.dest.take r.n = buf.content.take r.n ∧
      r.dest.drop r.n = dest.drop r.n ∧
      r.buf.content = buf.content.drop r.n ∧
      r.err = (if buf.content.length < dest.length then some Err.EOF else none) := by
  obtain ⟨r, hr, post⟩ := Read_spec fuel buf dest hfuel
  have hn : r.n = min dest.length buf.content.length := post.n_eq.trans (Nat.zero_add _)
  refine ⟨r, hr, hn, ?_, ?_, ?_, post.err_eq⟩
  · rw [hn, post.dest_eq, List.nil_append]
    rcases Nat.le_total dest.length buf.content.length with hle | hle
    · rw [Nat.min_eq_left hle, List.drop_eq_nil_of_le hle]
      simp [List.take_take]
    · rw [Nat.min_eq_right hle, List.take_of_length_le hle]
      simp
  · rw [hn, post.dest_eq, List.nil_append]
    rcases Nat.le_total dest.length buf.content.length with hle | hle
    · rw [Nat.min_eq_left hle, List.drop_eq_nil_of_le hle, List.append_nil]
      rw [List.drop_eq_nil_of_le (by simp), List.drop_length]
    · rw [Nat.min_eq_right hle, List.take_of_length_le hle]
      simp
  · rw [hn, post.content_eq]
    rcases Nat.le_total dest.length buf.content.length with hle | hle
    · rw [Nat.min_eq_left hle]
    · rw [Nat.min_eq_right hle, List.drop_eq_nil_of_le hle, List.drop_length]

/-- C1, round trip: `Write(B)` on an empty buffer over a pool of chunk capacity
at least 1 whose `Get` never fails, followed by `Read` into a destination of
length `len(B)`, returns `n = len(B)` without error and fills the destination
with exactly `B`. -/
theorem Write_Read_round_trip (pl : Pool) (B dest : List Byte) (f1 f2 : Nat)
    (hget : pl.budget = none) (hN : 1 ≤ pl.N) (hdest : dest.length = B.length)
    (hf1 : 2 * B.length + 2 ≤ f1) (hf2 : 2 * B.length + 1 ≤ f2) :
    ∃ w r, (NewPartition pl []).Write f1 B = some w ∧ w.buf.Read f2 dest = some r ∧
      r.n = B.length ∧ r.dest = B ∧ r.err = none := by
  have hw := Write_spec f1 (NewPartition pl []) B hget hN hf1
  obtain ⟨w, hw', -, -, hcont⟩ := Write_content f1 (NewPartition pl []) B hget hN hf1
  have hlen : w.buf.list.length ≤ B.length := by
    rw [hw] at hw'
    cases hw'
    simp only [NewPartition, fillTail_nil, tailGap_nil, List.drop_zero, List.nil_append,
      length_freshChunks]
    exact chunksFor_le _ _ hN
  have hS : w.buf.content = B := by
    rw [hcont]; simp [NewPartition, partition.content, contentOf_nil]
  obtain ⟨r, hr, post⟩ := Read_spec f2 w.buf dest (by omega)
  refine ⟨w, r, hw', hr, ?_, ?_, ?_⟩
  · rw [post.n_eq, hS, hdest]; simp
  · rw [post.dest_eq, hS, hdest, List.take_length, ← hdest, List.drop_length]; simp
  · rw [post.err_eq, hS, hdest]; simp

theorem chunksFor_mul_add (N k r : Nat) (hr0 : 0 < r) (hrN : r ≤ N) :
    chunksFor N (k * N + r) = k + 1 := by
  unfold chunksFor
  have e : k * N + r + N - 1 = (r + N - 1) + k * N := by omega
  rw [e, Nat.add_mul_div_right _ _ (by omega)]
  have : (r + N - 1) / N = 1 := Nat.div_eq_of_lt_le (by omega) (by omega)
  omega

/-- C4, grow-on-write: over a pool of chunk capacity `N` whose `Get` never
fails, `Write` of `k * N + r` bytes (`0 < r < N`) to an empty buffer leaves
exactly `k + 1` chunks, the first `k` holding `N` bytes each and the last `r`
bytes; chunk `j < k` holds the bytes `j * N .. j * N + N - 1` of the input and
the last chunk holds the remaining `r` bytes. -/
theorem Write_grows_chunk_list (pl : Pool) (k r : Nat) (B : List Byte) (fuel : Nat)
    (hget : pl.budget = none) (hr0 : 0 < r) (hrN : r < pl.N)
    (hB : B.length = k * pl.N + r) (hfuel : 2 * B.length + 2 ≤ fuel) :
    ∃ w, (NewPartition pl []).Write fuel B = some w ∧ w.n = B.length ∧ w.err = none ∧
      w.buf.list.length = k + 1 ∧
      w.buf.list.map memory.Len = List.replicate k pl.N ++ [r] ∧
      w.buf.list.map memory.Bytes =
        (List.range k).map (fun j => (B.drop (j * pl.N)).take pl.N) ++ [B.drop (k * pl.N)] := by
  have hN : 1 ≤ pl.N := by omega
  have hw := Write_spec fuel (NewPartition pl []) B hget hN hfuel
  simp only [NewPartition, fillTail_nil, tailGap_nil, List.drop_zero, List.nil_append,
    Nat.sub_zero] at hw
  have hbytes : (freshChunks pl.N pl.gets B).map memory.Bytes =
      (List.range k).map (fun j => (B.drop (j * pl.N)).take pl.N) ++ [B.drop (k * pl.N)] := by
    have htake : (B.drop (k * pl.N)).take pl.N = B.drop (k * pl.N) :=
      List.take_of_length_le (by simp only [List.length_drop]; omega)
    unfold freshChunks
    rw [hB, chunksFor_mul_add pl.N k r hr0 (by omega), List.range_succ]
    simp only [List.map_append, List.map_map, List.map_cons, List.map_nil, memory.Bytes,
      Function.comp_def]
    rw [htake]
  refine ⟨_, hw, rfl, rfl, ?_, ?_, hbytes⟩
  · simp only [length_freshChunks, hB]
    exact chunksFor_mul_add pl.N k r hr0 (by omega)
  · have hlen : (freshChunks pl.N pl.gets B).map memory.Len =
        ((freshChunks pl.N pl.gets B).map memory.Bytes).map List.length := by
      simp [memory.Len, memory.Bytes, Function.comp_def]
    show (freshChunks pl.N pl.gets B).map memory.Len = _
    rw [hlen, hbytes]
    simp only [List.map_append, List.map_map, List.map_cons, List.map_nil, List.length_drop]
    congr 1
    · rw [List.eq_replicate_iff]
      refine ⟨by simp, ?_⟩
      intro b hb
      simp only [List.mem_map, List.mem_range, Function.comp] at hb
      obtain ⟨j, hj, rfl⟩ := hb
      simp only [List.length_take, List.length_drop]
      have : j * pl.N + pl.N ≤ k * pl.N := by
        have := Nat.mul_le_mul_right pl.N (Nat.succ_le_of_lt hj)
        rw [Nat.succ_mul] at this
        exact this
      omega
    · congr 1
      omega

/-! ## Draining a buffer -/

theorem readAll_spec (G fuel : Nat) : ∀ (ds : List (List Byte)) (s : partition),
    Session G s → (∀ d ∈ ds, d.length + s.list.length + 1 ≤ fuel) →
    ∃ s', readAll fuel s ds = some s' ∧ Session G s' ∧
      s'.content = s.content.drop (ds.map List.length).sum ∧
      (s'.list = [] ↔ s.list = [] ∨ s.content.length < (ds.map List.length).sum) := by
  intro ds
  induction ds with
  | nil =>
    intro s inv _
    exact ⟨s, rfl, inv, by simp, by simp⟩
  | cons d ds ih =>
    intro s inv hf
    obtain ⟨r, hr, post⟩ := Read_spec fuel s d (hf d (List.mem_cons_self _ _))
    obtain ⟨k, hk, hpool, hids, htail⟩ := post.frame
    have hlen : r.buf.list.length ≤ s.list.length := by
      have := congrArg List.length hids
      simp only [List.length_map, List.length_drop] at this
      omega
    have inv' : Session G r.buf := by
      refine ⟨?_, ?_, ?_⟩
      · rw [hpool]; exact inv.gets_eq
      · rw [hpool, hids, ← inv.ids_eq]
        simp only [List.append_assoc, ← List.map_append, List.take_append_drop]
      · intro c hc
        rw [htail, List.tail_drop] at hc
        have hc' : c ∈ s.list.drop 1 := by
          have : s.list.drop (k + 1) = (s.list.drop 1).drop k := by
            rw [List.drop_drop, Nat.add_comm]
          rw [this] at hc
          exact List.mem_of_mem_drop hc
        rw [List.drop_one] at hc'
        exact inv.tail_ne c hc'
    obtain ⟨s', hs', inv2, hcont, hiff⟩ := ih r.buf inv' (by
      intro d' hd'
      have := hf d' (List.mem_cons_of_mem _ hd')
      omega)
    refine ⟨s', ?_, inv2, ?_, ?_⟩
    · simp only [readAll, hr]; exact hs'
    · rw [hcont, post.content_eq, List.drop_drop]
      simp [Nat.add_comm]
    · rw [hiff, post.content_eq]
      simp only [List.map_cons, List.sum_cons, List.length_drop]
      by_cases hlt : s.content.length < d.length
      · have herr : r.err = some Err.EOF := by rw [post.err_eq, if_pos hlt]
        have hnil := post.eof_nil herr
        constructor
        · intro _; right; omega
        · intro _; left; exact hnil
      · have herr : r.err = none := by rw [post.err_eq, if_neg hlt]
        rw [post.ok_nil herr]
        constructor
        · rintro (h | h)
          · left; exact h
          · right; omega
        · rintro (h | h)
          · left; exact h
          · right; omega

theorem data_nil_of_contentOf_nil : ∀ (l : List memory), contentOf l = [] →
    ∀ c ∈ l, c.data = [] := by
  intro l
  induction l with
  | nil => intro _ c hc; simp at hc
  | cons a t ih =>
    intro h c hc
    rw [contentOf_cons, List.append_eq_nil] at h
    rcases List.mem_cons.mp hc with rfl | hc
    · exact h.1
    · exact ih h.2 c hc

theorem lt_chunksFor (N len j : Nat) (hN : 1 ≤ N) (hj : j < chunksFor N len) :
    j * N < len := by
  unfold chunksFor at hj
  have h1 : (j + 1) * N ≤ len + N - 1 := (Nat.le_div_iff_mul_le (by omega)).mp hj
  rw [Nat.succ_mul] at h1
  omega

theorem freshChunks_ids (N g : Nat) (q : List Byte) :
    (freshChunks N g q).map memory.id = List.range' g (chunksFor N q.length) := by
  unfold freshChunks
  rw [List.map_map, List.range'_eq_map_range]
  rfl

theorem freshChunks_data_ne (N g : Nat) (q : List Byte) (hN : 1 ≤ N) :
    ∀ c ∈ freshChunks N g q, c.data ≠ [] := by
  intro c hc
  simp only [freshChunks, List.mem_map, List.mem_range] at hc
  obtain ⟨j, hj, rfl⟩ := hc
  have := lt_chunksFor N q.length j hN hj
  intro hnil
  have hl := congrArg List.length hnil
  simp only [List.length_take, List.length_drop, List.length_nil] at hl
  omega

theorem freshChunks_eq_nil (N g : Nat) (q : List Byte) (hN : 1 ≤ N) :
    freshChunks N g q = [] ↔ q = [] := by
  constructor
  · intro h
    by_contra hq
    have hpos : 0 < q.length := List.length_pos.mpr hq
    rw [freshChunks_cons N g q hN hpos] at h
    simp at h
  · rintro rfl
    exact freshChunks_nil N g

/-- The state after `Write` of `B` to the empty buffer over a fresh pool. -/
theorem Write_emptyBuf (N : Nat) (B : List Byte) (fuel : Nat) (hN : 1 ≤ N)
    (hf : 2 * B.length + 2 ≤ fuel) :
    (emptyBuf N).Write fuel B = some
      ⟨⟨freshChunks N 0 B, ⟨N, none, chunksFor N B.length, []⟩⟩, B.length, none⟩ := by
  have := Write_spec fuel (emptyBuf N) B rfl hN hf
  simpa [emptyBuf, NewPartition, fillTail_nil, tailGap_nil] using this

/-- C5 as stated fails: with `N = 4`, after `Write` of 6 bytes and two `Read`
calls of 3 bytes each, all 6 bytes are consumed, yet the list still holds the
second chunk, drained, and only the first chunk has been put back. -/
theorem drained_tail_chunk_stays :
    ((emptyBuf 4).Write 14 [1, 2, 3, 4, 5, 6]).bind
        (fun w => readAll 6 w.buf [[0, 0, 0], [0, 0, 0]]) =
      some ⟨[⟨1, 4, []⟩], ⟨4, none, 2, [0]⟩⟩ := by
  decide

/-- C5, amended: after `Write` of `B` to the empty buffer over a fresh pool
(chunk capacity at least 1, `Get` never failing) and `Read` calls that
together ask for at least `len(B)` bytes, no further chunk was taken from the
pool, the list holds at most one chunk, that chunk is drained and is the one
acquired last, and every other chunk acquired has been put back exactly once
(in the order of acquisition).  The list holds zero chunks exactly when `B` is
empty or the `Read` calls asked for more than `len(B)` bytes. -/
theorem drain_returns_chunks (N : Nat) (B : List Byte) (ds : List (List Byte)) (f1 f2 : Nat)
    (hN : 1 ≤ N) (hall : B.length ≤ (ds.map List.length).sum)
    (hf1 : 2 * B.length + 2 ≤ f1) (hf2 : ∀ d ∈ ds, d.length + B.length + 1 ≤ f2) :
    ∃ w s, (emptyBuf N).Write f1 B = some w ∧ readAll f2 w.buf ds = some s ∧
      s.pool.gets = w.buf.pool.gets ∧
      s.list.length ≤ 1 ∧
      (∀ c ∈ s.list, c.data = [] ∧ c.id + 1 = s.pool.gets) ∧
      s.pool.puts = List.range (s.pool.gets - s.list.length) ∧
      (s.list = [] ↔ B = [] ∨ B.length < (ds.map List.length).sum) := by
  have hw := Write_emptyBuf N B f1 hN hf1
  have inv : Session (chunksFor N B.length)
      ⟨freshChunks N 0 B, ⟨N, none, chunksFor N B.length, []⟩⟩ := by
    refine ⟨rfl, ?_, ?_⟩
    · simp only [List.nil_append, freshChunks_ids, List.range_eq_range']
    · intro c hc
      exact freshChunks_data_ne N 0 B hN c (List.mem_of_mem_tail hc)
  obtain ⟨s, hs, sinv, hcont, hiff⟩ := readAll_spec (chunksFor N B.length) f2 ds _ inv (by
    intro d hd
    have h1 := hf2 d hd
    have h2 := chunksFor_le N B.length hN
    simp only [length_freshChunks]
    omega)
  have hC : s.content = [] := by
    rw [hcont]
    apply List.drop_eq_nil_of_le
    simp only [partition.content]
    rw [contentOf_freshChunks N hN _ 0 B rfl]
    exact hall
  have hdata := data_nil_of_contentOf_nil s.list hC
  have htl : s.list.tail = [] := by
    cases htl : s.list.tail with
    | nil => rfl
    | cons a t =>
      have ha : a ∈ s.list.tail := by rw [htl]; exact List.mem_cons_self _ _
      exact absurd (hdata a (List.mem_of_mem_tail ha)) (sinv.tail_ne a ha)
  have key : (∀ c ∈ s.list, c.id + 1 = s.pool.gets) ∧
      s.pool.puts = List.range (s.pool.gets - s.list.length) := by
    have hids := sinv.ids_eq
    rw [sinv.gets_eq]
    cases hl : s.list with
    | nil =>
      rw [hl] at hids
      simpa using hids
    | cons a t =>
      rw [hl] at htl hids
      simp only [List.tail_cons] at htl
      subst htl
      simp only [List.map_cons, List.map_nil] at hids
      have hG : chunksFor N B.length = s.pool.puts.length + 1 := by
        have := congrArg List.length hids
        simpa using this.symm
      rw [hG, List.range_succ] at hids
      have h2 := List.append_inj hids (by simp)
      simp only [List.cons.injEq, and_true] at h2
      refine ⟨?_, ?_⟩
      · intro c hc
        rw [List.mem_singleton] at hc
        rw [hc, h2.2, hG]
      · rw [hG]
        simpa using h2.1
  refine ⟨_, s, hw, hs, sinv.gets_eq, ?_, ?_, key.2, ?_⟩
  · cases hl : s.list with
    | nil => simp
    | cons a t => rw [hl] at htl; simp at htl; simp [htl]
  · intro c hc
    exact ⟨hdata c hc, key.1 c hc⟩
  · rw [hiff]
    simp only [partition.content]
    rw [contentOf_freshChunks N hN _ 0 B rfl, freshChunks_eq_nil N 0 B hN]

/-! ## Peeking -/

theorem GetDataLen_foldl : ∀ (l : List memory) (a : Nat),
    l.foldl (fun dataLen v => dataLen + v.Bytes.length) a = a + (contentOf l).length := by
  intro l
  induction l with
  | nil => intro a; simp [contentOf_nil]
  | cons c t ih =>
    intro a
    rw [List.foldl_cons, ih, contentOf_cons, List.length_append]
    simp only [memory.Bytes]
    omega

theorem GetDataLen_eq (buf : partition) : buf.GetDataLen = buf.content.length := by
  unfold partition.GetDataLen partition.content
  rw [GetDataLen_foldl, Nat.zero_add]

theorem length_contentOf (l : List memory) :
    (contentOf l).length = (l.map memory.Len).sum := by
  induction l with
  | nil => rfl
  | cons c t ih => rw [contentOf_cons, List.length_append, ih]; simp [memory.Len]

/-- The loop of `ReadPeek` copies the chunks in front of the first drained
chunk and then stops. -/
theorem ReadPeekLoop_spec : ∀ (l : List memory) (done p : List Byte) (n : Nat),
    (contentOf (l.takeWhile (fun c => !Empty c))).length ≤ p.length →
    partition.ReadPeekLoop l done p n =
      (done ++ (contentOf (l.takeWhile (fun c => !Empty c)) ++
          p.drop (contentOf (l.takeWhile (fun c => !Empty c))).length),
        n + (contentOf (l.takeWhile (fun c => !Empty c))).length) := by
  intro l
  induction l with
  | nil => intro done p n _; simp [partition.ReadPeekLoop, contentOf_nil]
  | cons c t ih =>
    intro done p n h
    rw [partition.ReadPeekLoop]
    by_cases he : Empty c = true
    · have hd : c.data = [] := by simpa [Empty, memory.Len] using he
      simp [List.takeWhile_cons, he, copy, memory.Bytes, hd, contentOf_nil]
    · have he' : Empty c = false := by simpa using he
      have hd : 0 < c.data.length := by
        simp [Empty, memory.Len] at he
        exact List.length_pos.mpr he
      simp only [List.takeWhile_cons, he', Bool.not_false, if_true, contentOf_cons,
        List.length_append] at h ⊢
      have hle : c.data.length ≤ p.length := by omega
      have hm : min p.length c.data.length = c.data.length := Nat.min_eq_right hle
      have e1 : (copy p c.Bytes).2 = c.data.length := hm
      have e2 : (copy p c.Bytes).1 = c.data ++ p.drop c.data.length := by
        simp only [copy, memory.Bytes]
        rw [List.take_of_length_le hle]
      simp only [e1, e2]
      rw [if_neg (by omega), List.take_left, List.drop_left]
      rw [ih _ _ _ (by simp only [List.length_drop]; omega)]
      simp only [List.append_assoc, List.drop_drop, Nat.add_assoc, Prod.mk.injEq, and_true]

theorem length_takeWhile_content_le (l : List memory) (f : memory → Bool) :
    (contentOf (l.takeWhile f)).length ≤ (contentOf l).length := by
  have h := congrArg (fun x => (contentOf x).length) (List.takeWhile_append_dropWhile f l)
  simp only [contentOf_append, List.length_append] at h
  omega

/-- `ReadPeek` on a buffer with at least one chunk. -/
theorem ReadPeek_spec (buf : partition) (hne : buf.list ≠ []) :
    buf.ReadPeek = ⟨buf,
      some (contentOf (buf.list.takeWhile (fun c => !Empty c)) ++
        List.replicate
          (buf.GetDataLen - (contentOf (buf.list.takeWhile (fun c => !Empty c))).length) 0),
      (contentOf (buf.list.takeWhile (fun c => !Empty c))).length, none⟩ := by
  have hlen : ¬ buf.list.length = 0 := by
    intro h; exact hne (List.length_eq_zero.mp h)
  have hle := length_takeWhile_content_le buf.list (fun c => !Empty c)
  unfold partition.ReadPeek
  rw [if_neg hlen]
  simp only
  rw [ReadPeekLoop_spec _ _ _ _ (by
    rw [List.length_replicate, GetDataLen_eq]; exact hle)]
  simp [List.drop_replicate]

/-- C6 as stated fails: after `WriteByIndex([1,2,3], 2)` on the empty buffer
the chunks hold `[]`, `[]`, `[1,2,3]`; the resident bytes are `[1,2,3]` and
`GetDataLen` is 3, yet `ReadPeek` returns the slice `[0,0,0]` and `n = 0`. -/
theorem ReadPeek_stops_at_drained_chunk :
    ((emptyBuf 4).WriteByIndex 2 [1, 2, 3] 2).map
        (fun w => (w.buf.content, w.buf.GetDataLen, w.buf.ReadPeek.data, w.buf.ReadPeek.n,
          w.buf.ReadPeek.err)) =
      some ([1, 2, 3], 3, some [0, 0, 0], 0, none) := by
  decide

/-- C6, amended: on any buffer with at least one chunk in which no drained
chunk stands in front of a chunk that holds bytes, `ReadPeek` returns no
error, a slice equal to the resident bytes of all chunks front to back, and
`n` equal to `GetDataLen`, the sum of the lengths of all chunks. -/
theorem ReadPeek_returns_everything (buf : partition) (hne : buf.list ≠ [])
    (hgap : buf.list.Pairwise (fun a b => a.data = [] → b.data = [])) :
    buf.ReadPeek.err = none ∧ buf.ReadPeek.data = some buf.content ∧
      buf.ReadPeek.n = buf.GetDataLen ∧
      buf.GetDataLen = (buf.list.map memory.Len).sum := by
  have key : ∀ l : List memory, l.Pairwise (fun a b => a.data = [] → b.data = []) →
      contentOf (l.takeWhile (fun c => !Empty c)) = contentOf l := by
    intro l
    induction l with
    | nil => intro _; rfl
    | cons c t ih =>
      intro hp
      rw [List.pairwise_cons] at hp
      by_cases he : Empty c = true
      · have hd : c.data = [] := by simpa [Empty, memory.Len] using he
        have ht : contentOf t = [] := by
          simp only [contentOf, List.flatten_eq_nil_iff, List.mem_map, memory.Bytes]
          rintro x ⟨b, hb, rfl⟩
          exact hp.1 b hb hd
        simp [List.takeWhile_cons, he, contentOf_cons, hd, ht, contentOf_nil]
      · have he' : Empty c = false := by simpa using he
        simp [List.takeWhile_cons, he', contentOf_cons, ih hp.2]
  rw [ReadPeek_spec buf hne, key buf.list hgap]
  refine ⟨rfl, ?_, ?_, ?_⟩
  · simp [GetDataLen_eq, partition.content]
  · simp [GetDataLen_eq, partition.content]
  · rw [GetDataLen_eq, partition.content, length_contentOf]

theorem ReadPeek_buf (buf : partition) : buf.ReadPeek.buf = buf := by
  unfold partition.ReadPeek
  split <;> rfl

theorem ReadPeekByIndex_buf (buf : partition) (i : Nat) : (buf.ReadPeekByIndex i).buf = buf := by
  unfold partition.ReadPeekByIndex
  split <;> rfl

theorem peekMany_eq : ∀ (calls : List PeekCall) (buf : partition), peekMany buf calls = buf := by
  intro calls
  induction calls with
  | nil => intro buf; rfl
  | cons c cs ih =>
    intro buf
    rw [peekMany, ih]
    cases c with
    | all => exact ReadPeek_buf buf
    | byIndex i => exact ReadPeekByIndex_buf buf i

/-- C7, peeks are non-destructive: `ReadPeek` and `ReadPeekByIndex` leave the
buffer (the chunk list, every chunk, and the pool with its record of `Get` and
`Put` calls) as it was; after any run of peek calls `GetDataLen`, the number of
chunks and the result of a following `Read` are what they are without the
peeks. -/
theorem peek_changes_nothing (buf : partition) (i : Nat) (calls : List PeekCall)
    (fuel : Nat) (p : List Byte) :
    buf.ReadPeek.buf = buf ∧ (buf.ReadPeekByIndex i).buf = buf ∧
      peekMany buf calls = buf ∧
      (peekMany buf calls).GetDataLen = buf.GetDataLen ∧
      (peekMany buf calls).list.length = buf.list.length ∧
      (peekMany buf calls).Read fuel p = buf.Read fuel p := by
  refine ⟨ReadPeek_buf buf, ReadPeekByIndex_buf buf i, peekMany_eq calls buf, ?_, ?_, ?_⟩ <;>
    rw [peekMany_eq]

/-- C8, indexed overwrite precondition: with a payload longer than the chunk
capacity `N` of the pool, `WriteByIndex` returns `n = 0` and the oversize
error and leaves the buffer (chunk list, chunk contents and pool, so no `Get`)
as it was, at any index and with any fuel. -/
theorem WriteByIndex_oversize (buf : partition) (p : List Byte) (off fuel : Nat)
    (hbig : buf.pool.N < p.length) :
    buf.WriteByIndex fuel p off = some ⟨buf, 0, some Err.oversize⟩ := by
  unfold partition.WriteByIndex
  rw [if_pos hbig]

/-- The inner loop of `WriteByIndex` over a pool that never fails pushes `k`
empty chunks. -/
theorem growLoop_spec : ∀ (k : Nat) (buf : partition), buf.pool.budget = none →
    partition.growLoop k buf =
      (none, ⟨buf.list ++ (List.range k).map (fun j => ⟨buf.pool.gets + j, buf.pool.N, []⟩),
        { buf.pool with gets := buf.pool.gets + k }⟩) := by
  intro k
  induction k with
  | zero => intro buf _; simp [partition.growLoop]
  | succ k ih =>
    intro buf hb
    obtain ⟨l, pl⟩ := buf
    simp only at hb
    rw [partition.growLoop]
    simp only [Pool.Get, hb, partition.Push]
    rw [ih _ rfl]
    simp only [List.range_succ_eq_map, List.map_cons, List.map_map, List.append_assoc,
      List.singleton_append, Nat.add_zero, Prod.mk.injEq, partition.mk.injEq, true_and]
    refine ⟨?_, ?_⟩
    · congr 2
      apply List.map_congr_left
      intro j _
      simp only [Function.comp, memory.mk.injEq, and_true]
      omega
    · simp only [Pool.mk.injEq, true_and, and_true]
      omega

/-- C9 as stated fails: with an empty payload (`len(data) = 0 <= N`),
`WriteByIndex(data, 5)` on the empty buffer takes no chunk from the pool and
leaves zero chunks in the list, not 6. -/
theorem WriteByIndex_empty_payload_no_growth :
    (emptyBuf 4).WriteByIndex 2 [] 5 = some ⟨emptyBuf 4, 0, none⟩ ∧
      (emptyBuf 4).list.length = 0 := by
  decide

/-- The bound of the growth loop below `math.MaxInt64`: no wrap-around. -/
theorem growBound_of_lt (off lenList : Nat) (h : (off : Int) - (lenList : Int) < MaxInt64) :
    growBound off lenList = (off : Int) - (lenList : Int) + 1 := by
  unfold growBound int64Succ
  rw [if_neg (by omega)]

/-- At index `math.MaxInt64` on an empty list the bound of the growth loop wraps
around to `math.MinInt64`, no chunk is pushed, and the access `buf.List[off]`
is out of range: the call yields no result, whatever the fuel. -/
theorem WriteByIndex_at_MaxInt64 (pl : Pool) (data : List Byte) (fuel : Nat)
    (hfit : data.length ≤ pl.N) (hpos : 1 ≤ data.length) :
    (NewPartition pl []).WriteByIndex fuel data MaxInt64.toNat = none := by
  unfold partition.WriteByIndex
  rw [if_neg (by simp only [NewPartition]; omega)]
  cases fuel with
  | zero => rfl
  | succ f =>
    rw [partition.WriteByIndexLoop, if_pos (by omega)]
    have hb : (growBound MaxInt64.toNat (NewPartition pl []).list.length).toNat = 0 := by
      simp [growBound, int64Succ, MaxInt64, MinInt64, NewPartition]
    rw [hb]
    simp [partition.growLoop, NewPartition]

/-- C9, amended: over a pool of chunk capacity `N` whose `Get` never fails,
`WriteByIndex(data, i)` with `1 <= len(data) <= N` and an index `i` below
`math.MaxInt64` on an empty buffer returns `(len(data), nil)` and leaves
exactly `i + 1` chunks, chunks `0 .. i - 1` empty and chunk `i` holding exactly
`data`. -/
theorem WriteByIndex_grows_to_index (pl : Pool) (data : List Byte) (i fuel : Nat)
    (hget : pl.budget = none) (hpos : 1 ≤ data.length) (hfit : data.length ≤ pl.N)
    (hidx : (i : Int) < MaxInt64) (hfuel : 2 ≤ fuel) :
    ∃ w, (NewPartition pl []).WriteByIndex fuel data i = some w ∧
      w.n = data.length ∧ w.err = none ∧
      w.buf.list.length = i + 1 ∧
      w.buf.list.map memory.Bytes = List.replicate i [] ++ [data] := by
  obtain ⟨f, rfl⟩ : ∃ f, fuel = f + 2 := ⟨fuel - 2, by omega⟩
  unfold partition.WriteByIndex
  rw [if_neg (by simp only [NewPartition]; omega)]
  rw [partition.WriteByIndexLoop]
  rw [if_pos (by omega)]
  have hk : (growBound i (NewPartition pl []).list.length).toNat = i + 1 := by
    rw [growBound_of_lt _ _ (by simp only [NewPartition, List.length_nil]; omega)]
    simp only [NewPartition, List.length_nil]
    omega
  rw [hk, growLoop_spec _ _ hget]
  simp only [NewPartition, List.nil_append]
  have hidx : ((List.range (i + 1)).map
      (fun j => (⟨pl.gets + j, pl.N, []⟩ : memory)))[i]? = some ⟨pl.gets + i, pl.N, []⟩ := by
    simp
  have hwrite : (⟨pl.gets + i, pl.N, []⟩ : memory).Reset.Write data =
      (⟨pl.gets + i, pl.N, data⟩, data.length, none) := by
    simp only [memory.Reset, memory.Write, Gap, memory.Cap, memory.Len, List.length_nil,
      Nat.sub_zero, Nat.min_eq_right hfit, List.take_length, List.nil_append,
      if_neg (Nat.not_lt.mpr hfit)]
  rw [hidx]
  simp only [hwrite, List.drop_length, reduceCtorEq, if_false, ne_eq, not_true_eq_false]
  rw [partition.WriteByIndexLoop]
  simp only [List.length_nil, Nat.lt_irrefl, if_false]
  refine ⟨_, rfl, by simp, rfl, by simp, ?_⟩
  simp only [List.range_succ, List.map_append, List.map_cons, List.map_nil]
  rw [List.set_append_right _ _ (by simp)]
  simp [memory.Bytes, List.eq_replicate_iff]

theorem copy_fresh (src : List Byte) :
    copy (List.replicate src.length (0 : Byte)) src = (src, src.length) := by
  simp [copy]

/-- C10, indexed peek: `ReadPeekByIndex(index)` returns `io.EOF` with a nil
slice and `n = 0` when `index` is not below the number of chunks, and
otherwise no error, a slice equal to the resident bytes of the chunk at
position `index`, and `n` equal to the length of that chunk; the buffer is
left as it was. -/
theorem ReadPeekByIndex_result (buf : partition) (index : Nat) :
    (buf.list[index]? = none ↔ buf.list.length ≤ index) ∧
      buf.ReadPeekByIndex index =
        match buf.list[index]? with
        | none => ⟨buf, none, 0, some Err.EOF⟩
        | some c => ⟨buf, some c.Bytes, c.Len, none⟩ := by
  refine ⟨List.getElem?_eq_none_iff, ?_⟩
  unfold partition.ReadPeekByIndex
  by_cases h : buf.list.length ≤ index
  · rw [dif_pos h, List.getElem?_eq_none h]
  · rw [dif_neg h, List.getElem?_eq_getElem (Nat.lt_of_not_le h)]
    simp only [memory.Len, memory.Bytes, List.get_eq_getElem, copy_fresh]

/-! ## `Reset` -/

theorem ResetLoop_spec : ∀ (l : List memory) (pl : Pool),
    partition.ResetLoop l pl = ⟨[], { pl with puts := pl.puts ++ l.map memory.id }⟩ := by
  intro l
  induction l with
  | nil => intro pl; simp [partition.ResetLoop]
  | cons c t ih =>
    intro pl
    rw [partition.ResetLoop, ih]
    simp [Pool.Put]

/-- C11, `Reset` is total: after `Reset` the list holds zero chunks and
`GetDataLen` is 0; the pool has received one `Put` for each chunk that was in
the list, front to back, and nothing else about the pool has changed; `Reset`
on a buffer without chunks changes nothing and makes no `Put`, so a second
`Reset` changes nothing. -/
theorem Reset_returns_every_chunk (buf : partition) :
    buf.Reset = ⟨[], { buf.pool with puts := buf.pool.puts ++ buf.list.map memory.id }⟩ ∧
      buf.Reset.list.length = 0 ∧ buf.Reset.GetDataLen = 0 ∧
      (NewPartition buf.pool []).Reset = NewPartition buf.pool [] ∧
      buf.Reset.Reset = buf.Reset := by
  have h : buf.Reset =
      ⟨[], { buf.pool with puts := buf.pool.puts ++ buf.list.map memory.id }⟩ :=
    ResetLoop_spec buf.list buf.pool
  refine ⟨h, ?_, ?_, ?_, ?_⟩
  · rw [h]; rfl
  · rw [h]; rfl
  · rfl
  · rw [h]; rfl

/-! ## `ReadPeek` in general -/

/-- C13, `ReadPeek` stops early: it returns `io.EOF` with a nil slice exactly
when the list has zero chunks; otherwise it returns no error and a slice whose
length is `GetDataLen`, with `n` the total length of the chunks in front of the
first empty chunk (all chunks when none is empty) and the first `n` bytes of
the slice equal to the bytes of those chunks, front to back. -/
theorem ReadPeek_early_stop (buf : partition) :
    (buf.ReadPeek.err = some Err.EOF ↔ buf.list = []) ∧
      (buf.ReadPeek.data = none ↔ buf.list = []) ∧
      (buf.ReadPeek.err = none ↔ buf.list ≠ []) ∧
      buf.ReadPeek.n = ((buf.list.takeWhile (fun c => !Empty c)).map memory.Len).sum ∧
      ((buf.ReadPeek.data.getD []).length = if buf.list = [] then 0 else buf.GetDataLen) ∧
      (buf.ReadPeek.data.getD []).take buf.ReadPeek.n =
        contentOf (buf.list.takeWhile (fun c => !Empty c)) := by
  by_cases hne : buf.list = []
  · have h : buf.ReadPeek = ⟨buf, none, 0, some Err.EOF⟩ := by
      unfold partition.ReadPeek
      rw [if_pos (by rw [hne]; rfl)]
    rw [h, hne]
    simp [contentOf_nil]
  · have hle := length_takeWhile_content_le buf.list (fun c => !Empty c)
    have hlen : buf.GetDataLen = (contentOf buf.list).length := GetDataLen_eq buf
    rw [← hlen] at hle
    rw [ReadPeek_spec buf hne, ← length_contentOf]
    simp only [hne, reduceCtorEq, false_iff, not_false_eq_true, true_iff, Option.getD_some,
      List.length_append, List.length_replicate, if_false, true_and, not_true_eq_false,
      iff_false, List.take_left, and_true, ne_eq]
    omega

/-! ## `WriteByIndex` on an existing chunk -/

/-- C14, indexed overwrite in place: on a buffer whose chunks all have the
capacity `N` of the pool, with `index` below the number of chunks and
`1 <= len(p) <= N`, `WriteByIndex(p, index)` returns `(len(p), nil)`, leaves
the pool as it was (no `Get`), and leaves the list as it was except that the
chunk at `index` now holds exactly `p` (same handle, same capacity, prior
content discarded). -/
theorem WriteByIndex_in_place (buf : partition) (p : List Byte) (off fuel : Nat)
    (huni : ∀ c ∈ buf.list, c.N = buf.pool.N) (hidx : off < buf.list.length)
    (hpos : 1 ≤ p.length) (hfit : p.length ≤ buf.pool.N) (hfuel : 2 ≤ fuel) :
    ∃ r c, buf.WriteByIndex fuel p off = some r ∧ buf.list[off]? = some c ∧
      r.n = p.length ∧ r.err = none ∧ r.buf.pool = buf.pool ∧
      r.buf.list = buf.list.set off { c with data := p } ∧
      r.buf.list.length = buf.list.length ∧
      (∀ j, j ≠ off → r.buf.list[j]? = buf.list[j]?) ∧
      (r.buf.list[off]?).map memory.Bytes = some p := by
  obtain ⟨f, rfl⟩ : ∃ f, fuel = f + 2 := ⟨fuel - 2, by omega⟩
  have hc : buf.list[off]? = some (buf.list[off]) := List.getElem?_eq_getElem hidx
  have hN : (buf.list[off]).N = buf.pool.N := huni _ (List.getElem_mem hidx)
  have hk : (growBound off buf.list.length).toNat = 0 := by
    rw [growBound_of_lt _ _ (by unfold MaxInt64; omega)]
    omega
  have hwrite : (buf.list[off]).Reset.Write p =
      ({ buf.list[off] with data := p }, p.length, none) := by
    simp only [memory.Reset, memory.Write, Gap, memory.Cap, memory.Len, List.length_nil,
      Nat.sub_zero, hN, Nat.min_eq_right hfit, List.take_length, List.nil_append,
      if_neg (Nat.not_lt.mpr hfit)]
  refine ⟨⟨⟨buf.list.set off { buf.list[off] with data := p }, buf.pool⟩, p.length, none⟩,
    buf.list[off], ?_, hc, rfl, rfl, rfl, rfl, by simp, ?_, ?_⟩
  · unfold partition.WriteByIndex
    rw [if_neg (Nat.not_lt.mpr hfit), partition.WriteByIndexLoop, if_pos (by omega), hk]
    simp only [partition.growLoop, hc, hwrite, List.drop_length, reduceCtorEq, if_false,
      ne_eq, not_true_eq_false, Nat.zero_add]
    rw [partition.WriteByIndexLoop]
    simp
  · intro j hj
    simp only
    rw [List.getElem?_set_ne (Ne.symm hj)]
  · simp only
    rw [List.getElem?_set_self hidx]
    rfl

/-! ## `Write` over any pool -/

theorem Get_fail (pl : Pool) (hb : pl.budget = some 0) :
    pl.Get = (Except.error Err.poolErr, pl) := by
  simp [Pool.Get, hb]

theorem Get_ok (pl : Pool) (hb : pl.budget ≠ some 0) :
    pl.Get = (Except.ok ⟨pl.gets, pl.N, []⟩,
      { pl with budget := pl.budget.map (fun b => b - 1), gets := pl.gets + 1 }) := by
  obtain ⟨N, budget, g, puts⟩ := pl
  cases budget with
  | none => simp [Pool.Get]
  | some b =>
    cases b with
    | zero => simp at hb
    | succ b => simp [Pool.Get]

/-- One turn of the loop of `Write` on an empty list: when `Get` fails the call
returns, otherwise the chunk is pushed and the turn goes on as on a list that
holds this chunk. -/
theorem WriteLoop_nil_get (fuel : Nat) (pl : Pool) (p : List Byte) (n : Nat)
    (hp : 0 < p.length) :
    partition.WriteLoop (fuel + 1) ⟨[], pl⟩ p n =
      match pl.Get with
      | (Except.error e, pl1) => some ⟨⟨[], pl1⟩, n, some e⟩
      | (Except.ok c, pl1) => partition.WriteLoop (fuel + 1) ⟨[c], pl1⟩ p n := by
  rcases h : pl.Get with ⟨e | c, pl1⟩
  · rw [partition.WriteLoop]
    simp [hp, h]
  · simp only
    rw [partition.WriteLoop, partition.WriteLoop]
    simp [hp, h, partition.Push]

/-- One turn of the loop of `Write` when the last chunk is full: when `Get`
fails the call returns, otherwise the chunk is pushed. -/
theorem WriteLoop_full_get (fuel : Nat) (l : List memory) (c : memory) (pl : Pool)
    (p : List Byte) (n : Nat) (hp : 0 < p.length) (hc : Gap c = 0) :
    partition.WriteLoop (fuel + 1) ⟨l ++ [c], pl⟩ p n =
      match pl.Get with
      | (Except.error e, pl1) => some ⟨⟨l ++ [c], pl1⟩, n, some e⟩
      | (Except.ok next, pl1) => partition.WriteLoop fuel ⟨l ++ [c] ++ [next], pl1⟩ p n := by
  have hfull : Full c = true := by simp [Full, hc]
  rw [partition.WriteLoop]
  rcases h : pl.Get with ⟨e | next, pl1⟩ <;>
    simp [hp, h, partition.Push, hfull]

theorem appendTail_nil (x : List Byte) : appendTail [] x = [] := rfl

theorem appendTail_concat (l : List memory) (c : memory) (x : List Byte) :
    appendTail (l ++ [c]) x = l ++ [{ c with data := c.data ++ x }] := by
  simp [appendTail]

theorem appendTail_empty (l : List memory) : appendTail l [] = l := by
  rcases List.eq_nil_or_concat l with rfl | ⟨l1, c, rfl⟩
  · rfl
  · simp [List.concat_eq_append, appendTail_concat]

/-- Whenever the loop of `Write` returns, over any pool, its result is related
to the state at entry by `WritePost`. -/
theorem WriteLoop_post : ∀ (fuel : Nat) (buf : partition) (p : List Byte) (n : Nat)
    (r : WriteResult), partition.WriteLoop fuel buf p n = some r → WritePost buf p n r := by
  intro fuel
  induction fuel with
  | zero => intro buf p n r h; simp [partition.WriteLoop] at h
  | succ fuel ih =>
    intro buf p n r h
    obtain ⟨l, pl⟩ := buf
    by_cases hp : 0 < p.length
    · have hconcat : ∀ (l1 : List memory) (c : memory) (pl1 : Pool) (r1 : WriteResult),
          partition.WriteLoop (fuel + 1) ⟨l1 ++ [c], pl1⟩ p n = some r1 →
          WritePost ⟨l1 ++ [c], pl1⟩ p n r1 := by
        intro l1 c pl1 r1 h1
        by_cases hc : Gap c = 0
        · rw [WriteLoop_full_get fuel l1 c pl1 p n hp hc] at h1
          by_cases hb : pl1.budget = some 0
          · rw [Get_fail pl1 hb] at h1
            simp only [Option.some.injEq] at h1
            subst h1
            exact ⟨Nat.le_refl _, Nat.le_add_right _ _,
              Or.inr ⟨rfl, by simp only; omega, hb⟩, rfl, rfl,
              [], [], by simp [appendTail_empty], by simp [contentOf_nil], by simp, rfl⟩
          · rw [Get_ok pl1 hb] at h1
            simp only at h1
            obtain ⟨h1, h2, h3, h4, h5, x, more, hl, hx, -, hg⟩ := ih _ _ _ _ h1
            refine ⟨h1, h2, h3, h4, h5, [], { id := pl1.gets, N := pl1.N, data := x } :: more,
              ?_, ?_, by simp, ?_⟩
            · rw [hl, appendTail_concat, appendTail_empty]
              simp
            · rw [← hx, contentOf_cons]
              simp
            · rw [hg]; simp only [List.length_cons]; omega
        · have hc1 : 0 < Gap c := Nat.pos_of_ne_zero hc
          rw [WriteLoop_step_room fuel l1 c pl1 p n hp hc1] at h1
          have hm1 : 1 ≤ min (Gap c) p.length := Nat.le_min.mpr ⟨hc1, hp⟩
          have hm2 : min (Gap c) p.length ≤ p.length := Nat.min_le_right _ _
          obtain ⟨h1, h2, h3, h4, h5, x, more, hl, hx, -, hg⟩ := ih _ _ _ _ h1
          simp only [List.length_drop] at h2 h3
          generalize min (Gap c) p.length = m at *
          refine ⟨by omega, by omega, ?_, h4, h5, p.take m ++ x, more, ?_, ?_, by simp, hg⟩
          · rcases h3 with ⟨e1, e2⟩ | ⟨e1, e2, e3⟩
            · exact Or.inl ⟨e1, by omega⟩
            · exact Or.inr ⟨e1, by omega, e3⟩
          · rw [hl, appendTail_concat, appendTail_concat]
            simp
          · rw [List.append_assoc, hx]
            have e : r1.n - (n + m) = (r1.n - n) - m := by omega
            rw [e]
            exact take_split p m (r1.n - n) (by omega)
      rcases List.eq_nil_or_concat l with rfl | ⟨l1, c, rfl⟩
      · rw [WriteLoop_nil_get fuel pl p n hp] at h
        by_cases hb : pl.budget = some 0
        · rw [Get_fail pl hb] at h
          simp only [Option.some.injEq] at h
          subst h
          exact ⟨Nat.le_refl _, Nat.le_add_right _ _,
            Or.inr ⟨rfl, by simp only; omega, hb⟩, rfl, rfl,
            [], [], by simp [appendTail_nil], by simp [contentOf_nil], by simp, rfl⟩
        · rw [Get_ok pl hb] at h
          simp only at h
          obtain ⟨h1, h2, h3, h4, h5, x, more, hl, hx, -, hg⟩ :=
            hconcat [] _ _ r (by simpa using h)
          refine ⟨h1, h2, h3, h4, h5, [], { id := pl.gets, N := pl.N, data := x } :: more,
            ?_, ?_, by simp, ?_⟩
          · rw [hl, appendTail_concat, appendTail_nil]
            simp
          · rw [← hx, contentOf_cons]
            simp
          · rw [hg]; simp only [List.length_cons]; omega
      · simp only [List.concat_eq_append] at h ⊢
        exact hconcat l1 c pl r h
    · have hp0 : p = [] := List.length_eq_zero.mp (by omega)
      subst hp0
      rw [partition.WriteLoop] at h
      simp only [List.length_nil, Nat.lt_irrefl, if_false, Option.some.injEq] at h
      subst h
      exact ⟨Nat.le_refl _, Nat.le_add_right _ _, Or.inl ⟨rfl, rfl⟩, rfl, rfl,
        [], [], by simp [appendTail_empty], by simp [contentOf_nil], by simp, rfl⟩

theorem cutTo_nil (budget : Option Nat) (N : Nat) : cutTo budget N [] = [] := by
  cases budget <;> simp [cutTo]

theorem cutTo_length_le (budget : Option Nat) (N : Nat) (q : List Byte) :
    (cutTo budget N q).length ≤ q.length := by
  cases budget with
  | none => simp [cutTo]
  | some b => simp only [cutTo, List.length_take]; exact Nat.min_le_right _ _

theorem cutTo_zero (N : Nat) (q : List Byte) : cutTo (some 0) N q = [] := by
  simp [cutTo]

theorem cutTo_take (budget : Option Nat) (N : Nat) (p : List Byte)
    (hb : budget ≠ some 0) : (cutTo budget N p).take N = p.take N := by
  cases budget with
  | none => rfl
  | some b =>
    cases b with
    | zero => simp at hb
    | succ b =>
      simp only [cutTo, List.take_take]
      congr 1
      rw [Nat.succ_mul]
      omega

theorem cutTo_drop (budget : Option Nat) (N : Nat) (p : List Byte)
    (hb : budget ≠ some 0) :
    (cutTo budget N p).drop N = cutTo (budget.map (fun b => b - 1)) N (p.drop N) := by
  cases budget with
  | none => rfl
  | some b =>
    cases b with
    | zero => simp at hb
    | succ b =>
      simp only [cutTo, Option.map_some', List.drop_take, Nat.add_sub_cancel]
      congr 1
      rw [Nat.succ_mul]
      omega

/-- The chunk that a successful `Get` adds takes the next `N` bytes: how the
closed form unfolds by one chunk. -/
theorem cutTo_step (budget : Option Nat) (N g : Nat) (p : List Byte)
    (hb : budget ≠ some 0) (hN : 1 ≤ N) (hp : 0 < p.length) :
    freshChunks N g (cutTo budget N p) =
        ⟨g, N, p.take N⟩ ::
          freshChunks N (g + 1) (cutTo (budget.map (fun b => b - 1)) N (p.drop N)) ∧
      (cutTo budget N p).length =
        min N p.length + (cutTo (budget.map (fun b => b - 1)) N (p.drop N)).length ∧
      chunksFor N (cutTo budget N p).length =
        chunksFor N (cutTo (budget.map (fun b => b - 1)) N (p.drop N)).length + 1 := by
  have htake := cutTo_take budget N p hb
  have hdrop := cutTo_drop budget N p hb
  have hlen : (cutTo budget N p).length =
      min N p.length + (cutTo (budget.map (fun b => b - 1)) N (p.drop N)).length := by
    rw [← hdrop]
    have := congrArg List.length (List.take_append_drop N (cutTo budget N p))
    rw [List.length_append, htake, List.length_take] at this
    omega
  have hpos : 0 < (cutTo budget N p).length := by
    have : 1 ≤ min N p.length := Nat.le_min.mpr ⟨hN, hp⟩
    omega
  refine ⟨?_, hlen, ?_⟩
  · rw [freshChunks_cons N g _ hN hpos, htake, hdrop]
  · rw [chunksFor_succ N _ hN hpos, ← hdrop, List.length_drop]

theorem writeOutcome_nil_input (buf : partition) (n : Nat) :
    writeOutcome buf [] n = ⟨buf, n, none⟩ := by
  obtain ⟨l, pl⟩ := buf
  obtain ⟨N, budget, g, puts⟩ := pl
  simp only [writeOutcome, List.drop_nil, cutTo_nil, freshChunks_nil, List.append_nil,
    List.length_nil, chunksFor_zero, Nat.sub_zero, Nat.add_zero, Nat.min_zero,
    Nat.lt_irrefl, if_false, List.take_nil]
  have h1 : fillTail l [] = l := by
    rcases List.eq_nil_or_concat l with rfl | ⟨l1, c, rfl⟩
    · rfl
    · simp [List.concat_eq_append, fillTail_concat]
  rw [h1]
  simp

theorem writeOutcome_fail (l : List memory) (pl : Pool) (p : List Byte) (n : Nat)
    (hb : pl.budget = some 0) (hp : 0 < p.length) (hg : tailGap l = 0) :
    writeOutcome ⟨l, pl⟩ p n = ⟨⟨l, pl⟩, n, some Err.poolErr⟩ := by
  obtain ⟨N, budget, g, puts⟩ := pl
  simp only at hb
  subst hb
  have h1 : fillTail l p = l := by
    rcases List.eq_nil_or_concat l with rfl | ⟨l1, c, rfl⟩
    · rfl
    · simp only [List.concat_eq_append, tailGap_concat] at hg
      simp [List.concat_eq_append, fillTail_concat, hg]
  simp only [writeOutcome, hg, List.drop_zero, cutTo_zero, freshChunks_nil, List.append_nil,
    List.length_nil, chunksFor_zero, Nat.sub_zero, Nat.add_zero, Nat.zero_min, h1, hp,
    if_true, Option.map_some']

theorem writeOutcome_push (l : List memory) (pl : Pool) (p : List Byte) (n : Nat)
    (hb : pl.budget ≠ some 0) (hN : 1 ≤ pl.N) (hp : 0 < p.length) (hg : tailGap l = 0)
    (hfill : fillTail l p = l) :
    writeOutcome ⟨l, pl⟩ p n =
      writeOutcome ⟨l ++ [⟨pl.gets, pl.N, []⟩],
        { pl with budget := pl.budget.map (fun b => b - 1), gets := pl.gets + 1 }⟩ p n := by
  obtain ⟨N, budget, g, puts⟩ := pl
  simp only at hb hN
  obtain ⟨e1, e2, e3⟩ := cutTo_step budget N g p hb hN hp
  have hgap : Gap (⟨g, N, []⟩ : memory) = N := by simp [Gap, memory.Cap, memory.Len]
  simp only [writeOutcome, hg, List.drop_zero, tailGap_concat, fillTail_concat, hgap, hfill,
    e1, e3, List.nil_append, Nat.zero_min, Nat.add_zero, List.length_drop]
  simp only [e2]
  have hmin : min N p.length ≤ p.length := Nat.min_le_right _ _
  have hmap : Option.map (fun b => b -
        (chunksFor N (cutTo (Option.map (fun b => b - 1) budget) N (p.drop N)).length + 1))
        budget =
      Option.map (fun b => b -
        chunksFor N (cutTo (Option.map (fun b => b - 1) budget) N (p.drop N)).length)
        (Option.map (fun b => b - 1) budget) := by
    cases budget with
    | none => rfl
    | some b => simp only [Option.map_some', Option.some.injEq]; omega
  rw [hmap]
  generalize (cutTo (Option.map (fun b => b - 1) budget) N (p.drop N)).length = k
  have hm : min N p.length + (p.length - N) = p.length := by
    rcases Nat.le_total N p.length with h | h
    · rw [Nat.min_eq_left h]; omega
    · rw [Nat.min_eq_right h]; omega
  generalize min N p.length = m at hm hmin ⊢
  simp only [List.append_assoc, List.singleton_append, WriteResult.mk.injEq,
    partition.mk.injEq, Pool.mk.injEq, true_and, and_true]
  refine ⟨?_, ?_, ?_⟩
  · omega
  · omega
  · by_cases hk : k < p.length - N
    · rw [if_pos hk, if_pos (by omega)]
    · rw [if_neg hk, if_neg (by omega)]

theorem writeOutcome_room (l : List memory) (c : memory) (pl : Pool) (p : List Byte)
    (n : Nat) :
    writeOutcome ⟨l ++ [c], pl⟩ p n =
      writeOutcome ⟨l ++ [{ c with data := c.data ++ p.take (min (Gap c) p.length) }], pl⟩
        (p.drop (min (Gap c) p.length)) (n + min (Gap c) p.length) := by
  have hm3 : min (Gap c) p.length ≤ Gap c := Nat.min_le_left _ _
  have hgap : Gap ({ c with data := c.data ++ p.take (min (Gap c) p.length) } : memory)
      = Gap c - min (Gap c) p.length := by
    simp only [Gap, memory.Cap, memory.Len, List.length_append, List.length_take]
    rw [Nat.min_assoc, Nat.min_self]
    omega
  have hzero : min (Gap c - min (Gap c) p.length) (p.length - min (Gap c) p.length) = 0 := by
    rcases Nat.le_total (Gap c) p.length with h | h
    · rw [Nat.min_eq_left h, Nat.sub_self, Nat.zero_min]
    · rw [Nat.min_eq_right h, Nat.sub_self, Nat.min_zero]
  simp only [writeOutcome, tailGap_concat, fillTail_concat, hgap, List.append_assoc,
    take_split p _ _ hm3, drop_split p _ _ hm3, List.length_drop, hzero, Nat.add_zero]

/-- The loop of `Write` over a pool of chunk capacity at least 1, whether or
not `Get` fails: it returns, and its result is `writeOutcome`. -/
theorem WriteLoop_closed : ∀ (fuel : Nat) (buf : partition) (p : List Byte) (n : Nat),
    1 ≤ buf.pool.N →
    2 * p.length + (if tailGap buf.list = 0 then 2 else 1) ≤ fuel →
    partition.WriteLoop fuel buf p n = some (writeOutcome buf p n) := by
  intro fuel
  induction fuel with
  | zero => intro buf p n _ h; split at h <;> omega
  | succ fuel ih =>
    intro buf p n hN h
    obtain ⟨l, pl⟩ := buf
    simp only at hN h
    by_cases hp : 0 < p.length
    · have hconcat : ∀ (l1 : List memory) (c : memory) (pl1 : Pool), 1 ≤ pl1.N →
          2 * p.length + (if Gap c = 0 then 2 else 1) ≤ fuel + 1 →
          partition.WriteLoop (fuel + 1) ⟨l1 ++ [c], pl1⟩ p n =
            some (writeOutcome ⟨l1 ++ [c], pl1⟩ p n) := by
        intro l1 c pl1 hN1 h1
        by_cases hc : Gap c = 0
        · rw [if_pos hc] at h1
          rw [WriteLoop_full_get fuel l1 c pl1 p n hp hc]
          by_cases hb : pl1.budget = some 0
          · rw [Get_fail pl1 hb]
            simp only
            rw [writeOutcome_fail _ pl1 p n hb hp (by rw [tailGap_concat]; exact hc)]
          · rw [Get_ok pl1 hb]
            simp only
            have hgap : Gap (⟨pl1.gets, pl1.N, []⟩ : memory) = pl1.N := by
              simp [Gap, memory.Cap, memory.Len]
            rw [ih _ _ _ hN1 (by
              show 2 * p.length +
                (if tailGap (l1 ++ [c] ++ [⟨pl1.gets, pl1.N, []⟩]) = 0 then 2 else 1) ≤ fuel
              rw [tailGap_concat, hgap, if_neg (by omega)]
              omega)]
            rw [writeOutcome_push (l1 ++ [c]) pl1 p n hb hN1 hp
              (by rw [tailGap_concat]; exact hc)
              (by rw [fillTail_concat, hc]; simp)]
        · have hc1 : 0 < Gap c := Nat.pos_of_ne_zero hc
          rw [if_neg hc] at h1
          rw [WriteLoop_step_room fuel l1 c pl1 p n hp hc1]
          have hm1 : 1 ≤ min (Gap c) p.length := Nat.le_min.mpr ⟨hc1, hp⟩
          have hm2 : min (Gap c) p.length ≤ p.length := Nat.min_le_right _ _
          rw [ih _ _ _ hN1 (by
            simp only [List.length_drop]
            generalize min (Gap c) p.length = m at *
            split <;> omega)]
          rw [← writeOutcome_room]
      rcases List.eq_nil_or_concat l with rfl | ⟨l1, c, rfl⟩
      · rw [WriteLoop_nil_get fuel pl p n hp]
        simp only [tailGap_nil, if_true] at h
        by_cases hb : pl.budget = some 0
        · rw [Get_fail pl hb]
          simp only
          rw [writeOutcome_fail _ pl p n hb hp tailGap_nil]
        · rw [Get_ok pl hb]
          simp only
          have hgap : Gap (⟨pl.gets, pl.N, []⟩ : memory) = pl.N := by
            simp [Gap, memory.Cap, memory.Len]
          have := hconcat [] ⟨pl.gets, pl.N, []⟩
            { pl with budget := pl.budget.map (fun b => b - 1), gets := pl.gets + 1 } hN
            (by rw [hgap, if_neg (by omega)]; omega)
          simp only [List.nil_append] at this
          rw [this]
          have e := writeOutcome_push [] pl p n hb hN hp tailGap_nil (fillTail_nil p)
          simp only [List.nil_append] at e
          rw [e]
      · simp only [List.concat_eq_append, tailGap_concat] at h ⊢
        exact hconcat l1 c pl hN h
    · have hp0 : p = [] := List.length_eq_zero.mp (by omega)
      subst hp0
      rw [partition.WriteLoop, writeOutcome_nil_input]
      simp

/-- `Write` over a pool of chunk capacity at least 1 returns `writeOutcome`. -/
theorem Write_closed (fuel : Nat) (buf : partition) (p : List Byte)
    (hN : 1 ≤ buf.pool.N) (h : 2 * p.length + 2 ≤ fuel) :
    buf.Write fuel p = some (writeOutcome buf p 0) :=
  WriteLoop_closed fuel buf p 0 hN (by split <;> omega)

theorem contentOf_appendTail (l : List memory) (x : List Byte) (h : l = [] → x = []) :
    contentOf (appendTail l x) = contentOf l ++ x := by
  rcases List.eq_nil_or_concat l with rfl | ⟨l1, c, rfl⟩
  · rw [h rfl]; rfl
  · simp only [List.concat_eq_append]
    rw [appendTail_concat, contentOf_append, contentOf_append]
    simp [contentOf, memory.Bytes]

theorem length_appendTail (l : List memory) (x : List Byte) :
    (appendTail l x).length = l.length := by
  rcases List.eq_nil_or_concat l with rfl | ⟨l1, c, rfl⟩
  · rfl
  · simp [List.concat_eq_append, appendTail_concat]

/-- The chunks of `l` inside `appendTail l x ++ more`: all but the last are
where and what they were, the last has `x` appended. -/
theorem appendTail_frame (l more : List memory) (x : List Byte) :
    l.length ≤ (appendTail l x ++ more).length ∧
      (∀ i, i + 1 < l.length → (appendTail l x ++ more)[i]? = l[i]?) ∧
      (∀ c, l.getLast? = some c →
        (appendTail l x ++ more)[l.length - 1]? = some { c with data := c.data ++ x }) := by
  rcases List.eq_nil_or_concat l with rfl | ⟨l1, c, rfl⟩
  · simp
  · simp only [List.concat_eq_append, appendTail_concat, List.length_append,
      List.length_singleton, List.length_cons, List.length_nil, Nat.add_sub_cancel]
    refine ⟨by omega, ?_, ?_⟩
    · intro i hi
      rw [List.append_assoc, List.getElem?_append_left (by omega),
        List.getElem?_append_left (by omega)]
    · intro c1 hc1
      rw [getLast?_concat_chunk, Option.some.injEq] at hc1
      subst hc1
      rw [List.append_assoc, List.getElem?_append_right (Nat.le_refl _)]
      simp

/-- C12, `Write` under pool failure: whenever `Write(B)` returns an error, on
any buffer with stream content `S` and over any pool, the error is the error of
the pool (whose `Get` has failed: its budget is used up), `n` is below
`len(B)`, the stream content is `S` followed by the first `n` bytes of `B`,
and the chunks that were in the list or were pushed before the failure are in
the list (it has not shrunk, nothing was put back).  And `Write` does return
so: when the pool has chunk capacity `N >= 1` and hands out `b` more chunks,
and `B` does not fit the free room of the last chunk plus `b` chunks, `Write`
returns the pool error with `n` equal to that room. -/
theorem Write_pool_failure (buf : partition) (B : List Byte) (fuel : Nat) :
    (∀ r, buf.Write fuel B = some r → r.err ≠ none →
      r.err = some Err.poolErr ∧ r.buf.pool.budget = some 0 ∧ r.n < B.length ∧
        r.buf.content = buf.content ++ B.take r.n ∧
        buf.list.length ≤ r.buf.list.length ∧ r.buf.pool.puts = buf.pool.puts) ∧
    (∀ b, buf.pool.budget = some b → 1 ≤ buf.pool.N →
      tailGap buf.list + b * buf.pool.N < B.length → 2 * B.length + 2 ≤ fuel →
      ∃ r, buf.Write fuel B = some r ∧ r.err = some Err.poolErr ∧
        r.n = tailGap buf.list + b * buf.pool.N ∧
        r.buf.list.length = buf.list.length + b) := by
  constructor
  · intro r hr herr
    obtain ⟨h1, h2, h3, h4, h5, x, more, hl, hx, hnil, hg⟩ := WriteLoop_post fuel buf B 0 r hr
    rcases h3 with ⟨e1, -⟩ | ⟨e1, e2, e3⟩
    · exact absurd e1 herr
    · refine ⟨e1, e3, by omega, ?_, ?_, h4⟩
      · simp only [partition.content]
        rw [hl, contentOf_append, contentOf_appendTail _ _ hnil, List.append_assoc, hx,
          Nat.sub_zero]
      · rw [hl]; exact (appendTail_frame buf.list more x).1
  · intro b hb hN hbig hfuel
    refine ⟨_, Write_closed fuel buf B hN hfuel, ?_⟩
    have hlen : (cutTo buf.pool.budget buf.pool.N (B.drop (tailGap buf.list))).length
        = b * buf.pool.N := by
      rw [hb]
      simp only [cutTo, List.length_take, List.length_drop]
      exact Nat.min_eq_left (by omega)
    have hcf : chunksFor buf.pool.N (b * buf.pool.N) = b := by
      unfold chunksFor
      rcases Nat.eq_zero_or_pos b with h0 | h0
      · subst h0
        rw [Nat.zero_mul, Nat.zero_add]
        exact Nat.div_eq_of_lt (by omega)
      · have e : b * buf.pool.N + buf.pool.N - 1 = (buf.pool.N - 1) + b * buf.pool.N := by
          have := Nat.mul_le_mul h0 hN
          omega
        rw [e, Nat.add_mul_div_right _ _ (by omega), Nat.div_eq_of_lt (by omega)]
        omega
    have hfill : (fillTail buf.list B).length = buf.list.length := by
      rcases List.eq_nil_or_concat buf.list with h | ⟨l1, c, h⟩
      · rw [h]; rfl
      · rw [h]; simp [List.concat_eq_append, fillTail_concat]
    refine ⟨?_, ?_, ?_⟩
    · simp only [writeOutcome, hlen, List.length_drop]
      rw [if_pos (by omega)]
    · simp only [writeOutcome, hlen]
      rw [Nat.min_eq_left (by omega)]
      omega
    · simp only [writeOutcome, List.length_append, length_freshChunks, hlen, hcf, hfill]

/-- C17, `Write` only grows: whenever `Write` returns, with or without error,
on any buffer and over any pool, the list is at least as long as before, every
chunk that was in the list except the former last one is at its position
unchanged, the former last chunk is at its position with the same handle and
capacity and with its old content in front of its new content, and the record
of `Put` calls of the pool is unchanged.  Over a pool of chunk capacity at
least 1 `Write` does return. -/
theorem Write_only_grows (buf : partition) (p : List Byte) (fuel : Nat) :
    (∀ r, buf.Write fuel p = some r →
      buf.list.length ≤ r.buf.list.length ∧
        (∀ i, i + 1 < buf.list.length → r.buf.list[i]? = buf.list[i]?) ∧
        (∀ c, buf.list.getLast? = some c →
          ∃ x, r.buf.list[buf.list.length - 1]? = some { c with data := c.data ++ x }) ∧
        r.buf.pool.puts = buf.pool.puts) ∧
    (1 ≤ buf.pool.N → 2 * p.length + 2 ≤ fuel → ∃ r, buf.Write fuel p = some r) := by
  constructor
  · intro r hr
    obtain ⟨-, -, -, h4, -, x, more, hl, -, -, -⟩ := WriteLoop_post fuel buf p 0 r hr
    obtain ⟨f1, f2, f3⟩ := appendTail_frame buf.list more x
    rw [hl]
    exact ⟨f1, f2, fun c hc => ⟨x, f3 c hc⟩, h4⟩
  · intro hN hfuel
    exact ⟨_, Write_closed fuel buf p hN hfuel⟩

/-! ## Termination of `Write` -/

theorem WriteLoop_zero_capacity : ∀ (fuel : Nat) (l : List memory) (g : Nat)
    (puts : List Nat) (p : List Byte) (n : Nat), 0 < p.length →
    (∀ c, l.getLast? = some c → Gap c = 0) →
    partition.WriteLoop fuel ⟨l, ⟨0, none, g, puts⟩⟩ p n = none := by
  intro fuel
  induction fuel with
  | zero => intro l g puts p n _ _; rfl
  | succ fuel ih =>
    intro l g puts p n hp hl
    have hconcat : ∀ (l1 : List memory) (c : memory) (g1 : Nat), Gap c = 0 →
        partition.WriteLoop (fuel + 1) ⟨l1 ++ [c], ⟨0, none, g1, puts⟩⟩ p n = none := by
      intro l1 c g1 hc
      rw [WriteLoop_full_get fuel l1 c _ p n hp hc, Get_ok _ (by simp)]
      simp only [Option.map_none']
      exact ih _ _ _ _ _ hp (by
        intro c1 hc1
        rw [getLast?_concat_chunk, Option.some.injEq] at hc1
        subst hc1
        simp [Gap, memory.Cap, memory.Len])
    rcases List.eq_nil_or_concat l with rfl | ⟨l1, c, rfl⟩
    · rw [WriteLoop_nil_get fuel _ p n hp, Get_ok _ (by simp)]
      simp only [Option.map_none']
      have := hconcat [] ⟨g, 0, []⟩ (g + 1) (by simp [Gap, memory.Cap, memory.Len])
      simpa using this
    · simp only [List.concat_eq_append] at hl ⊢
      exact hconcat l1 c g (hl c (getLast?_concat_chunk l1 c))

/-- The loop of `Write` returns when the pool hands out only `b` more chunks,
whatever the chunk capacity. -/
theorem WriteLoop_returns_of_budget : ∀ (fuel : Nat) (buf : partition) (p : List Byte)
    (n b : Nat), buf.pool.budget = some b → p.length + b + 2 ≤ fuel →
    ∃ r, partition.WriteLoop fuel buf p n = some r := by
  intro fuel
  induction fuel with
  | zero => intro buf p n b _ h; omega
  | succ fuel ih =>
    intro buf p n b hb h
    obtain ⟨l, pl⟩ := buf
    simp only at hb
    by_cases hp : 0 < p.length
    · have hconcat : ∀ (l1 : List memory) (c : memory) (pl1 : Pool) (b1 : Nat),
          pl1.budget = some b1 → p.length + b1 + 1 ≤ fuel →
          ∃ r, partition.WriteLoop (fuel + 1) ⟨l1 ++ [c], pl1⟩ p n = some r := by
        intro l1 c pl1 b1 hb1 h1
        by_cases hc : Gap c = 0
        · rw [WriteLoop_full_get fuel l1 c pl1 p n hp hc]
          by_cases hz : pl1.budget = some 0
          · rw [Get_fail pl1 hz]; exact ⟨_, rfl⟩
          · rw [Get_ok pl1 hz]
            have hb1pos : 0 < b1 := by
              rcases Nat.eq_zero_or_pos b1 with h0 | h0
              · subst h0; exact absurd hb1 hz
              · exact h0
            exact ih _ p n (b1 - 1) (by simp [hb1]) (by omega)
        · have hc1 : 0 < Gap c := Nat.pos_of_ne_zero hc
          rw [WriteLoop_step_room fuel l1 c pl1 p n hp hc1]
          have hm1 : 1 ≤ min (Gap c) p.length := Nat.le_min.mpr ⟨hc1, hp⟩
          exact ih _ _ _ b1 hb1 (by simp only [List.length_drop]; omega)
      rcases List.eq_nil_or_concat l with rfl | ⟨l1, c, rfl⟩
      · rw [WriteLoop_nil_get fuel pl p n hp]
        by_cases hz : pl.budget = some 0
        · rw [Get_fail pl hz]; exact ⟨_, rfl⟩
        · rw [Get_ok pl hz]
          have hbpos : 0 < b := by
            rcases Nat.eq_zero_or_pos b with h0 | h0
            · subst h0; exact absurd hb hz
            · exact h0
          have := hconcat [] ⟨pl.gets, pl.N, []⟩
            { pl with budget := pl.budget.map (fun b => b - 1), gets := pl.gets + 1 } (b - 1)
            (by simp [hb]) (by omega)
          simpa using this
      · simp only [List.concat_eq_append]
        exact hconcat l1 c pl b hb (by omega)
    · have hp0 : p = [] := List.length_eq_zero.mp (by omega)
      subst hp0
      rw [partition.WriteLoop]
      exact ⟨⟨⟨l, pl⟩, n, none⟩, by simp⟩

/-- C18 as stated fails: over a pool of chunk capacity 0 whose `Get` never
fails (it returns an empty chunk of the pool's capacity each time), `Write` of
one byte to the empty buffer never returns, whatever the fuel. -/
theorem Write_zero_capacity_never_returns :
    ¬ ∃ fuel r, (emptyBuf 0).Write fuel [1] = some r := by
  rintro ⟨fuel, r, h⟩
  have := WriteLoop_zero_capacity fuel [] 0 [] [1] 0 (by decide) (by simp)
  simp only [partition.Write, emptyBuf, NewPartition] at h
  rw [this] at h
  exact absurd h (by simp)

/-- C18, amended: on any buffer and any input, `Write` returns when the pool
has chunk capacity at least 1 (whether or not `Get` fails) or when `Get` fails
after finitely many successful calls (whatever the chunk capacity). -/
theorem Write_runs_to_completion (buf : partition) (p : List Byte) (fuel : Nat)
    (hpool : 1 ≤ buf.pool.N ∨ buf.pool.budget ≠ none)
    (hfuel : 2 * p.length + buf.pool.budget.getD 0 + 2 ≤ fuel) :
    ∃ r, buf.Write fuel p = some r := by
  rcases hpool with hN | hb
  · exact ⟨_, Write_closed fuel buf p hN (by omega)⟩
  · cases hbud : buf.pool.budget with
    | none => exact absurd hbud hb
    | some b =>
      rw [hbud] at hfuel
      simp only [Option.getD_some] at hfuel
      exact WriteLoop_returns_of_budget fuel buf p 0 b hbud (by omega)

theorem chunksFor_le_iff (N k m : Nat) (hN : 1 ≤ N) : chunksFor N k ≤ m ↔ k ≤ m * N := by
  unfold chunksFor
  rw [← Nat.lt_succ_iff, Nat.div_lt_iff_lt_mul (by omega), Nat.succ_mul]
  omega

theorem length_fillTail (l : List memory) (p : List Byte) :
    (fillTail l p).length = l.length := by
  rcases List.eq_nil_or_concat l with rfl | ⟨l1, c, rfl⟩
  · rfl
  · simp [List.concat_eq_append, fillTail_concat]

/-- C19, `Write` never appends an empty chunk: on any buffer, over a pool of
chunk capacity `N >= 1`, whether `Get` succeeds or fails, `Write` returns with
the former chunks in place (the last one filled up) followed by the chunks it
pushed; each pushed chunk holds at least one byte, the number of chunks taken
from the pool is the number pushed, and this number is the least number of
chunks of capacity `N` that hold the bytes reported as written beyond the free
room of the former last chunk. -/
theorem Write_pushes_no_empty_chunk (buf : partition) (p : List Byte) (fuel : Nat)
    (hN : 1 ≤ buf.pool.N) (hfuel : 2 * p.length + 2 ≤ fuel) :
    ∃ r more, buf.Write fuel p = some r ∧
      r.buf.list = fillTail buf.list p ++ more ∧
      (fillTail buf.list p).length = buf.list.length ∧
      (∀ c ∈ more, c.data ≠ []) ∧
      r.buf.pool.gets = buf.pool.gets + more.length ∧
      r.n - min (tailGap buf.list) p.length ≤ more.length * buf.pool.N ∧
      (∀ m, r.n - min (tailGap buf.list) p.length ≤ m * buf.pool.N → more.length ≤ m) := by
  refine ⟨_, freshChunks buf.pool.N buf.pool.gets
      (cutTo buf.pool.budget buf.pool.N (p.drop (tailGap buf.list))),
    Write_closed fuel buf p hN hfuel, rfl, length_fillTail _ _,
    freshChunks_data_ne _ _ _ hN, ?_, ?_, ?_⟩
  · simp only [writeOutcome, length_freshChunks]
  · simp only [writeOutcome, length_freshChunks, Nat.zero_add, Nat.add_sub_cancel_left]
    exact (chunksFor_le_iff _ _ _ hN).mp (Nat.le_refl _)
  · intro m hm
    simp only [writeOutcome, length_freshChunks, Nat.zero_add, Nat.add_sub_cancel_left] at hm ⊢
    exact (chunksFor_le_iff _ _ _ hN).mpr hm

/-! ## A drained head chunk -/

/-- C15 as stated fails for `Write`: on the chunks `[]`, `[5]` (head chunk
drained), `Write([6])` leaves the drained chunk at the head of the list and
puts nothing back to the pool. -/
theorem Write_keeps_drained_head :
    (⟨[⟨0, 4, []⟩, ⟨1, 4, [5]⟩], ⟨4, none, 2, []⟩⟩ : partition).Write 4 [6] =
      some ⟨⟨[⟨0, 4, []⟩, ⟨1, 4, [5, 6]⟩], ⟨4, none, 2, []⟩⟩, 1, none⟩ := by
  decide

/-- The head chunk of the list after bytes were appended to the last chunk and
chunks pushed behind it: a head that is not the last chunk is what it was. -/
theorem head?_appendTail (c : memory) (rest more : List memory) (x : List Byte) :
    (appendTail (c :: rest) x ++ more).head? =
      some (if rest = [] then { c with data := c.data ++ x } else c) := by
  rcases List.eq_nil_or_concat rest with rfl | ⟨l1, z, rfl⟩
  · have := appendTail_concat [] c x
    simp only [List.nil_append] at this
    rw [this]
    rfl
  · have := appendTail_concat (c :: l1) z x
    simp only [List.concat_eq_append, List.cons_append] at this ⊢
    rw [this, if_neg (by simp)]
    rfl

/-- C15, amended: on a buffer whose head chunk has no unread bytes, `Read`
with a non-empty destination pops that chunk and puts it to the pool before
any byte is transferred (it goes on as `Read` on the buffer without that
chunk), so that after the `Read` the list is made of chunks that stood behind
it and the pool has received it first.  `Write` neither pops nor puts:
whenever it returns, nothing was put to the pool, the list is at least as long
as before and that chunk (same handle, same capacity) is still the head of
the list, still without bytes when other chunks stand behind it; and over a
pool of chunk capacity at least 1 `Write` does return. -/
theorem drained_head_popped_by_Read (buf : partition) (c : memory) (rest : List memory)
    (p : List Byte) (fuel : Nat) (hhead : buf.list = c :: rest) (hdrained : c.data = [])
    (hp : 0 < p.length) (hfuel : p.length + rest.length + 1 ≤ fuel) :
    buf.Read (fuel + 1) p = (⟨rest, buf.pool.Put c⟩ : partition).Read fuel p ∧
      (∃ r k, buf.Read (fuel + 1) p = some r ∧ k ≤ rest.length ∧
        r.buf.list.map memory.id = (rest.drop k).map memory.id ∧
        r.buf.pool.puts = buf.pool.puts ++ c.id :: (rest.take k).map memory.id) ∧
      (∀ f q w, buf.Write f q = some w →
        w.buf.pool.puts = buf.pool.puts ∧ buf.list.length ≤ w.buf.list.length ∧
        ∃ x, w.buf.list.head? = some { c with data := x } ∧ (rest ≠ [] → x = [])) ∧
      (1 ≤ buf.pool.N → ∀ f q, 2 * q.length + 2 ≤ f → ∃ w, buf.Write f q = some w) := by
  obtain ⟨l, pl⟩ := buf
  simp only at hhead
  subst hhead
  have hstep : (⟨c :: rest, pl⟩ : partition).Read (fuel + 1) p =
      (⟨rest, pl.Put c⟩ : partition).Read fuel p := by
    have he : Empty c = true := by simp [Empty, memory.Len, hdrained]
    simp only [partition.Read]
    rw [partition.ReadLoop, if_pos hp]
    simp only [he, if_true]
  refine ⟨hstep, ?_, ?_, ?_⟩
  · obtain ⟨r, hr, post⟩ := Read_spec fuel ⟨rest, pl.Put c⟩ p hfuel
    obtain ⟨k, hk, hpool, hids, -⟩ := post.frame
    refine ⟨r, k, by rw [hstep]; exact hr, hk, hids, ?_⟩
    rw [hpool]
    simp [Pool.Put]
  · intro f q w hw
    obtain ⟨-, -, -, h4, -, x, more, hl, -, -, -⟩ := WriteLoop_post f _ q 0 w hw
    refine ⟨h4, ?_, ?_⟩
    · rw [hl]; exact (appendTail_frame (c :: rest) more x).1
    · rw [hl, head?_appendTail]
      by_cases hrest : rest = []
      · exact ⟨x, by rw [if_pos hrest, hdrained]; rfl, fun h => absurd hrest h⟩
      · refine ⟨[], ?_, fun _ => rfl⟩
        rw [if_neg hrest, ← hdrained]
  · intro hN f q hf
    exact ⟨_, Write_closed f _ q hN hf⟩

/-! ## The shape of the chunk list -/

theorem mem_dropLast_of_drop {α : Type} : ∀ (X : List α) (k : Nat) (x : α),
    x ∈ (X.drop k).dropLast → x ∈ X.dropLast := by
  intro X
  induction X with
  | nil => intro k x h; simp at h
  | cons a t ih =>
    intro k x h
    cases k with
    | zero => simpa using h
    | succ k =>
      simp only [List.drop_succ_cons] at h
      have ht := ih k x h
      cases t with
      | nil => simp at ht
      | cons b u =>
        rw [List.dropLast_cons_of_ne_nil (by simp)]
        exact List.mem_cons_of_mem _ ht

theorem mem_tail_append {α : Type} (A B : List α) (x : α) (h : x ∈ (A ++ B).tail) :
    x ∈ A.tail ∨ x ∈ B := by
  cases A with
  | nil => right; simpa using List.mem_of_mem_tail h
  | cons a t =>
    simp only [List.cons_append, List.tail_cons, List.mem_append] at h ⊢
    exact h

/-- Every chunk of `freshChunks` except the last holds `N` bytes. -/
theorem freshChunks_dropLast_full (N : Nat) (hN : 1 ≤ N) :
    ∀ (len g : Nat) (q : List Byte), q.length = len →
      ∀ c ∈ (freshChunks N g q).dropLast, c.data.length = N := by
  intro len
  induction len using Nat.strong_induction_on with
  | _ len ih =>
    intro g q hq c hc
    by_cases h0 : 0 < q.length
    · rw [freshChunks_cons N g q hN h0] at hc
      by_cases hrest : freshChunks N (g + 1) (q.drop N) = []
      · rw [hrest] at hc
        simp at hc
      · rw [List.dropLast_cons_of_ne_nil hrest] at hc
        rcases List.mem_cons.mp hc with rfl | hc
        · have hne : q.drop N ≠ [] := by
            intro h
            exact hrest (by rw [h]; exact freshChunks_nil N (g + 1))
          have hlen : 0 < (q.drop N).length := List.length_pos.mpr hne
          simp only [List.length_drop] at hlen
          simp only [List.length_take]
          omega
        · exact ih (q.drop N).length (by simp only [List.length_drop]; omega) (g + 1)
            (q.drop N) rfl c hc
    · have : q = [] := List.length_eq_zero.mp (by omega)
      subst this
      rw [freshChunks_nil] at hc
      simp at hc

/-- Whenever the loop of `Read` returns, the list is a tail of the list at
entry whose head chunk has lost bytes at its front. -/
theorem ReadLoop_chunks : ∀ (fuel : Nat) (buf : partition) (done p : List Byte) (n : Nat)
    (r : ReadResult), partition.ReadLoop fuel buf done p n = some r →
    r.buf.pool.N = buf.pool.N ∧
      ∃ k j, r.buf.list =
        (buf.list.drop k).modifyHead (fun c => { c with data := c.data.drop j }) := by
  intro fuel
  induction fuel with
  | zero => intro buf done p n r h; simp [partition.ReadLoop] at h
  | succ fuel ih =>
    intro buf done p n r h
    obtain ⟨l, pl⟩ := buf
    have hid : ∀ L : List memory,
        L = (L.drop 0).modifyHead (fun c => { c with data := c.data.drop 0 }) := by
      intro L
      cases L <;> simp
    rw [partition.ReadLoop] at h
    by_cases hp : p.length > 0
    · rw [if_pos hp] at h
      cases l with
      | nil =>
        simp only [Option.some.injEq] at h
        subst h
        exact ⟨rfl, 0, 0, hid _⟩
      | cons b rest =>
        simp only at h
        by_cases he : Empty b = true
        · rw [if_pos he] at h
          obtain ⟨h1, k, j, h2⟩ := ih _ _ _ _ _ h
          exact ⟨h1, k + 1, j, h2⟩
        · rw [if_neg he] at h
          have hb : 0 < b.data.length := by
            simp [Empty, memory.Len] at he
            exact List.length_pos.mpr he
          have hread : b.Read p =
              ({ b with data := b.data.drop (copy p b.data).2 }, (copy p b.data).1,
                (copy p b.data).2, none) := by
            simp only [memory.Read]
            rw [if_neg (by omega)]
          simp only [hread, ne_eq, not_true_eq_false, false_and, if_false] at h
          obtain ⟨h1, k, j, h2⟩ := ih _ _ _ _ _ h
          refine ⟨h1, ?_⟩
          cases k with
          | zero =>
            refine ⟨0, (copy p b.data).2 + j, ?_⟩
            rw [h2]
            simp [List.drop_drop]
          | succ k =>
            exact ⟨k + 1, j, by rw [h2]; simp⟩
    · rw [if_neg hp] at h
      simp only [Option.some.injEq] at h
      subst h
      exact ⟨rfl, 0, 0, hid _⟩

theorem ChunkInv_read (N : Nat) (buf : partition) (fuel : Nat) (p : List Byte)
    (r : ReadResult) (inv : ChunkInv N buf) (hr : buf.Read fuel p = some r) :
    ChunkInv N r.buf := by
  obtain ⟨hN, k, j, hl⟩ := ReadLoop_chunks fuel buf [] p 0 r hr
  refine ⟨hN.trans inv.pool_N, ?_, ?_⟩
  · intro c hc
    rw [hl] at hc
    cases hL : buf.list.drop k with
    | nil => rw [hL] at hc; simp at hc
    | cons y t =>
      rw [hL] at hc
      have hsub : ∀ z ∈ y :: t, z ∈ buf.list := by
        intro z hz
        rw [← hL] at hz
        exact List.mem_of_mem_drop hz
      simp only [List.modifyHead_cons, List.mem_cons] at hc
      rcases hc with rfl | hc
      · have := inv.caps y (hsub y (List.mem_cons_self _ _))
        refine ⟨this.1, ?_⟩
        simp only [List.length_drop]
        omega
      · exact inv.caps c (hsub c (List.mem_cons_of_mem _ hc))
  · intro c hc
    rw [hl, List.tail_dropLast] at hc
    have htl : ((buf.list.drop k).modifyHead
        (fun c => { c with data := c.data.drop j })).tail = buf.list.tail.drop k := by
      cases hL : buf.list.drop k with
      | nil =>
        have : buf.list.tail.drop k = [] := by
          rw [List.drop_tail, ← List.tail_drop, hL]; rfl
        rw [this]; rfl
      | cons y t =>
        simp only [List.modifyHead_cons, List.tail_cons]
        rw [List.drop_tail, ← List.tail_drop, hL]; rfl
    rw [htl] at hc
    have := mem_dropLast_of_drop _ _ _ hc
    rw [← List.tail_dropLast] at this
    exact inv.inner_full c this

theorem freshChunks_caps (N g : Nat) (q : List Byte) :
    ∀ c ∈ freshChunks N g q, c.N = N ∧ c.data.length ≤ N := by
  intro c hc
  simp only [freshChunks, List.mem_map, List.mem_range] at hc
  obtain ⟨j, -, rfl⟩ := hc
  exact ⟨rfl, by simp only [List.length_take]; exact Nat.min_le_left _ _⟩

/-- `Write` keeps the shape of the chunk list, and when it returns every chunk
from the former last one up to the new last one, the new last one left out,
holds `N` bytes. -/
theorem ChunkInv_write (N : Nat) (buf : partition) (fuel : Nat) (p : List Byte)
    (r : WriteResult) (hN : 1 ≤ N) (inv : ChunkInv N buf)
    (hfuel : 2 * p.length + 2 ≤ fuel) (hw : buf.Write fuel p = some r) :
    ChunkInv N r.buf ∧
      ∀ c ∈ (r.buf.list.drop (buf.list.length - 1)).dropLast, c.data.length = N := by
  have hpN : buf.pool.N = N := inv.pool_N
  rw [Write_closed fuel buf p (by omega) hfuel, Option.some.injEq] at hw
  subst hw
  obtain ⟨l, pl⟩ := buf
  simp only at hpN
  subst hpN
  have hQcaps := freshChunks_caps pl.N pl.gets (cutTo pl.budget pl.N (p.drop (tailGap l)))
  have hQfull := freshChunks_dropLast_full pl.N hN _ pl.gets
    (cutTo pl.budget pl.N (p.drop (tailGap l))) rfl
  have hQnil := freshChunks_eq_nil pl.N pl.gets (cutTo pl.budget pl.N (p.drop (tailGap l))) hN
  have hcut := cutTo_length_le pl.budget pl.N (p.drop (tailGap l))
  simp only [writeOutcome]
  generalize freshChunks pl.N pl.gets (cutTo pl.budget pl.N (p.drop (tailGap l))) = Q
    at hQcaps hQfull hQnil ⊢
  rcases List.eq_nil_or_concat l with rfl | ⟨l1, c, rfl⟩
  · simp only [fillTail_nil, List.nil_append, List.length_nil, Nat.zero_sub, List.drop_zero]
    exact ⟨⟨rfl, hQcaps, fun x hx => hQfull x (List.mem_of_mem_tail hx)⟩, hQfull⟩
  · simp only [List.concat_eq_append] at inv hcut hQnil ⊢
    rw [tailGap_concat] at hcut hQnil
    have hc := inv.caps c (by simp)
    have hinner : ∀ x ∈ l1.tail, x.data.length = pl.N := by
      intro x hx
      apply inv.inner_full
      simpa using hx
    have hfullc : Q ≠ [] → (c.data ++ p.take (Gap c)).length = pl.N := by
      intro hQ
      have hq : cutTo pl.budget pl.N (p.drop (Gap c)) ≠ [] := fun h => hQ (hQnil.mpr h)
      have hpos : 0 < (cutTo pl.budget pl.N (p.drop (Gap c))).length := List.length_pos.mpr hq
      simp only [List.length_drop] at hcut
      simp only [List.length_append, List.length_take]
      have hg : Gap c = pl.N - c.data.length := by
        simp [Gap, memory.Cap, memory.Len, hc.1]
      rw [Nat.min_eq_left (by omega), hg]
      omega
    simp only [fillTail_concat, List.length_append, List.length_singleton,
      Nat.add_sub_cancel]
    refine ⟨⟨rfl, ?_, ?_⟩, ?_⟩
    · intro x hx
      simp only [List.mem_append, List.mem_singleton] at hx
      rcases hx with (hx | rfl) | hx
      · exact inv.caps x (by simp [hx])
      · refine ⟨hc.1, ?_⟩
        simp only [List.length_append, List.length_take]
        have hg : Gap c = pl.N - c.data.length := by
          simp [Gap, memory.Cap, memory.Len, hc.1]
        have := Nat.min_le_left (Gap c) p.length
        omega
      · exact hQcaps x hx
    · intro x hx
      by_cases hQ : Q = []
      · subst hQ
        simp only [List.append_nil, List.dropLast_concat] at hx
        exact hinner x hx
      · rw [List.dropLast_append_of_ne_nil _ hQ] at hx
        rcases mem_tail_append _ _ _ hx with hx | hx
        · rcases mem_tail_append _ _ _ hx with hx | hx
          · exact hinner x hx
          · rw [List.mem_singleton] at hx
            subst hx
            exact hfullc hQ
        · exact hQfull x hx
    · intro x hx
      rw [List.append_assoc, List.drop_left] at hx
      by_cases hQ : Q = []
      · subst hQ
        simp at hx
      · rw [List.singleton_append, List.dropLast_cons_of_ne_nil hQ] at hx
        rcases List.mem_cons.mp hx with rfl | hx
        · exact hfullc hQ
        · exact hQfull x hx

theorem ChunkInv_reachable (N : Nat) (hN : 1 ≤ N) (s : partition) (h : Reachable N s) :
    ChunkInv N s := by
  induction h with
  | init pl hpl => exact ⟨hpl, by simp [NewPartition], by simp [NewPartition]⟩
  | avail s b _ ih => exact ⟨ih.pool_N, ih.caps, ih.inner_full⟩
  | write s fuel p r _ hfuel hw ih => exact (ChunkInv_write N s fuel p r hN ih hfuel hw).1
  | read s fuel p r _ hr ih => exact ChunkInv_read N s fuel p r ih hr
  | reset s _ ih =>
    have hres : s.Reset =
        ⟨[], { s.pool with puts := s.pool.puts ++ s.list.map memory.id }⟩ :=
      ResetLoop_spec s.list s.pool
    rw [hres]
    exact ⟨ih.pool_N, by simp, by simp⟩

/-- C16 as stated fails: `WriteByIndex([1], 3)` on the empty buffer over a pool
of chunk capacity 4 leaves four chunks; the two chunks strictly between the
head and the last chunk hold 0 bytes, not 4, and were never written to. -/
theorem WriteByIndex_leaves_empty_inner_chunks :
    ((emptyBuf 4).WriteByIndex 2 [1] 3).map
        (fun w => (w.buf.list.map memory.Len, w.buf.list.dropLast.tail.map memory.Len)) =
      some ([0, 0, 0, 1], [0, 0]) := by
  decide

/-- C16, amended: in every state reachable from the empty buffer by `Write`,
`Read` and `Reset` over a pool of chunk capacity `N >= 1` (`Get` free to fail),
every chunk strictly between the head and the last chunk holds exactly `N`
bytes and every chunk has capacity `N` and holds at most `N` bytes; and a
`Write` from such a state appends a chunk only behind full chunks: when it
returns, every chunk from the former last one on, the new last one left out,
holds `N` bytes. -/
theorem inner_chunks_are_full (N : Nat) (s : partition) (hN : 1 ≤ N)
    (hreach : Reachable N s) :
    (∀ c ∈ s.list.dropLast.tail, c.data.length = N) ∧
      (∀ c ∈ s.list, c.N = N ∧ c.data.length ≤ N) ∧
      (∀ fuel p r, 2 * p.length + 2 ≤ fuel → s.Write fuel p = some r →
        ∀ c ∈ (r.buf.list.drop (s.list.length - 1)).dropLast, c.data.length = N) := by
  have inv := ChunkInv_reachable N hN s hreach
  exact ⟨inv.inner_full, inv.caps,
    fun fuel p r hfuel hw => (ChunkInv_write N s fuel p r hN inv hfuel hw).2⟩

/-! ## The theorems at concrete inputs -/

/-- `Write_Read_round_trip` at chunk capacity 4 and the six bytes `1..6`. -/
theorem Write_Read_round_trip_witness :
    (1 ≤ (4 : Nat)) ∧
    ∃ w r, (NewPartition ⟨4, none, 0, []⟩ []).Write 14 [1, 2, 3, 4, 5, 6] = some w ∧
      w.buf.Read 13 [0, 0, 0, 0, 0, 0] = some r ∧
      r.n = ([1, 2, 3, 4, 5, 6] : List Byte).length ∧ r.dest = [1, 2, 3, 4, 5, 6] ∧
      r.err = none :=
  ⟨by decide,
    Write_Read_round_trip ⟨4, none, 0, []⟩ [1, 2, 3, 4, 5, 6] [0, 0, 0, 0, 0, 0] 14 13
      rfl (by decide) rfl (by decide) (by decide)⟩

/-- `Write_appends` on a buffer that holds `[1, 2, 3]` in a chunk of capacity 4. -/
theorem Write_appends_witness :
    (1 ≤ (4 : Nat)) ∧
    ∃ r, (⟨[⟨0, 4, [1, 2, 3]⟩], ⟨4, none, 1, []⟩⟩ : partition).Write 8 [5, 6, 7] = some r ∧
      r.n = ([5, 6, 7] : List Byte).length ∧ r.err = none ∧
      r.buf.content =
        (⟨[⟨0, 4, [1, 2, 3]⟩], ⟨4, none, 1, []⟩⟩ : partition).content ++ [5, 6, 7] :=
  ⟨by decide,
    Write_appends ⟨[⟨0, 4, [1, 2, 3]⟩], ⟨4, none, 1, []⟩⟩ [5, 6, 7] 8
      rfl (by decide) (by decide)⟩

/-- `Read_consumes_front` on the chunks `[4]`, `[5, 6]` with a destination of length 5. -/
theorem Read_consumes_front_witness :
    (5 + 2 + 1 ≤ 8) ∧
    ∃ r, (⟨[⟨0, 4, [4]⟩, ⟨1, 4, [5, 6]⟩], ⟨4, none, 2, []⟩⟩ : partition).Read 8
        [0, 0, 0, 0, 0] = some r ∧
      r.n = min ([0, 0, 0, 0, 0] : List Byte).length
        (⟨[⟨0, 4, [4]⟩, ⟨1, 4, [5, 6]⟩], ⟨4, none, 2, []⟩⟩ : partition).content.length ∧
      r.dest.take r.n =
        (⟨[⟨0, 4, [4]⟩, ⟨1, 4, [5, 6]⟩], ⟨4, none, 2, []⟩⟩ : partition).content.take r.n ∧
      r.dest.drop r.n = ([0, 0, 0, 0, 0] : List Byte).drop r.n ∧
      r.buf.content =
        (⟨[⟨0, 4, [4]⟩, ⟨1, 4, [5, 6]⟩], ⟨4, none, 2, []⟩⟩ : partition).content.drop r.n ∧
      r.err =
        (if (⟨[⟨0, 4, [4]⟩, ⟨1, 4, [5, 6]⟩], ⟨4, none, 2, []⟩⟩ : partition).content.length
            < ([0, 0, 0, 0, 0] : List Byte).length then some Err.EOF else none) :=
  ⟨by decide,
    Read_consumes_front ⟨[⟨0, 4, [4]⟩, ⟨1, 4, [5, 6]⟩], ⟨4, none, 2, []⟩⟩ [0, 0, 0, 0, 0] 8
      (by decide)⟩

/-- `Write_grows_chunk_list` at `N = 4`, `k = 1`, `r = 2`: the chunks `[1,2,3,4]`, `[5,6]`. -/
theorem Write_grows_chunk_list_witness :
    (0 < 2 ∧ 2 < 4) ∧
    ∃ w, (NewPartition ⟨4, none, 0, []⟩ []).Write 14 [1, 2, 3, 4, 5, 6] = some w ∧
      w.n = ([1, 2, 3, 4, 5, 6] : List Byte).length ∧ w.err = none ∧
      w.buf.list.length = 1 + 1 ∧
      w.buf.list.map memory.Len = List.replicate 1 4 ++ [2] ∧
      w.buf.list.map memory.Bytes =
        (List.range 1).map (fun j => (([1, 2, 3, 4, 5, 6] : List Byte).drop (j * 4)).take 4)
          ++ [([1, 2, 3, 4, 5, 6] : List Byte).drop (1 * 4)] :=
  ⟨by decide,
    Write_grows_chunk_list ⟨4, none, 0, []⟩ 1 2 [1, 2, 3, 4, 5, 6] 14
      rfl (by decide) (by decide) rfl (by decide)⟩

/-- `drain_returns_chunks` at `N = 4` with six bytes and two `Read` calls of
3 bytes each. -/
theorem drain_returns_chunks_witness :
    (1 ≤ 4 ∧ 6 ≤ 3 + 3) ∧
    ∃ w s, (emptyBuf 4).Write 14 [1, 2, 3, 4, 5, 6] = some w ∧
      readAll 10 w.buf [[0, 0, 0], [0, 0, 0]] = some s ∧
      s.pool.gets = w.buf.pool.gets ∧
      s.list.length ≤ 1 ∧
      (∀ c ∈ s.list, c.data = [] ∧ c.id + 1 = s.pool.gets) ∧
      s.pool.puts = List.range (s.pool.gets - s.list.length) ∧
      (s.list = [] ↔ ([1, 2, 3, 4, 5, 6] : List Byte) = [] ∨
        ([1, 2, 3, 4, 5, 6] : List Byte).length
          < (([[0, 0, 0], [0, 0, 0]] : List (List Byte)).map List.length).sum) :=
  ⟨by decide,
    drain_returns_chunks 4 [1, 2, 3, 4, 5, 6] [[0, 0, 0], [0, 0, 0]] 14 10
      (by decide) (by decide) (by decide) (by decide)⟩

/-- `ReadPeek_returns_everything` on the chunks `[1, 2, 3, 4]`, `[5, 6]`. -/
theorem ReadPeek_returns_everything_witness :
    ((⟨[⟨0, 4, [1, 2, 3, 4]⟩, ⟨1, 4, [5, 6]⟩], ⟨4, none, 2, []⟩⟩ : partition).list ≠ []) ∧
    (⟨[⟨0, 4, [1, 2, 3, 4]⟩, ⟨1, 4, [5, 6]⟩], ⟨4, none, 2, []⟩⟩ : partition).ReadPeek.err
        = none ∧
      (⟨[⟨0, 4, [1, 2, 3, 4]⟩, ⟨1, 4, [5, 6]⟩], ⟨4, none, 2, []⟩⟩ : partition).ReadPeek.data
        = some
          (⟨[⟨0, 4, [1, 2, 3, 4]⟩, ⟨1, 4, [5, 6]⟩], ⟨4, none, 2, []⟩⟩ : partition).content ∧
      (⟨[⟨0, 4, [1, 2, 3, 4]⟩, ⟨1, 4, [5, 6]⟩], ⟨4, none, 2, []⟩⟩ : partition).ReadPeek.n
        = (⟨[⟨0, 4, [1, 2, 3, 4]⟩, ⟨1, 4, [5, 6]⟩], ⟨4, none, 2, []⟩⟩ :
            partition).GetDataLen ∧
      (⟨[⟨0, 4, [1, 2, 3, 4]⟩, ⟨1, 4, [5, 6]⟩], ⟨4, none, 2, []⟩⟩ : partition).GetDataLen
        = ((⟨[⟨0, 4, [1, 2, 3, 4]⟩, ⟨1, 4, [5, 6]⟩], ⟨4, none, 2, []⟩⟩ :
            partition).list.map memory.Len).sum :=
  ⟨by decide,
    ReadPeek_returns_everything ⟨[⟨0, 4, [1, 2, 3, 4]⟩, ⟨1, 4, [5, 6]⟩], ⟨4, none, 2, []⟩⟩
      (by decide) (by decide)⟩

/-- `WriteByIndex_oversize` with five bytes against chunk capacity 4. -/
theorem WriteByIndex_oversize_witness :
    ((4 : Nat) < ([1, 2, 3, 4, 5] : List Byte).length) ∧
    (⟨[⟨0, 4, [9]⟩], ⟨4, none, 1, []⟩⟩ : partition).WriteByIndex 3 [1, 2, 3, 4, 5] 0 =
      some ⟨⟨[⟨0, 4, [9]⟩], ⟨4, none, 1, []⟩⟩, 0, some Err.oversize⟩ :=
  ⟨by decide,
    WriteByIndex_oversize ⟨[⟨0, 4, [9]⟩], ⟨4, none, 1, []⟩⟩ [1, 2, 3, 4, 5] 0 3 (by decide)⟩

/-- `WriteByIndex_grows_to_index` at index 5 with three bytes and chunk capacity 4. -/
theorem WriteByIndex_grows_to_index_witness :
    (1 ≤ ([1, 2, 3] : List Byte).length ∧ ([1, 2, 3] : List Byte).length ≤ 4 ∧
      ((5 : Nat) : Int) < MaxInt64) ∧
    ∃ w, (NewPartition ⟨4, none, 0, []⟩ []).WriteByIndex 2 [1, 2, 3] 5 = some w ∧
      w.n = ([1, 2, 3] : List Byte).length ∧ w.err = none ∧
      w.buf.list.length = 5 + 1 ∧
      w.buf.list.map memory.Bytes = List.replicate 5 [] ++ [[1, 2, 3]] :=
  ⟨by decide,
    WriteByIndex_grows_to_index ⟨4, none, 0, []⟩ [1, 2, 3] 5 2
      rfl (by decide) (by decide) (by decide) (by decide)⟩

/-- `WriteByIndex_in_place` on the chunks `[1, 2]`, `[3]`, overwriting chunk 0 with `[7, 8, 9]`. -/
theorem WriteByIndex_in_place_witness :
    ((0 : Nat) < 2 ∧ 1 ≤ ([7, 8, 9] : List Byte).length ∧
      ([7, 8, 9] : List Byte).length ≤ 4) ∧
    ∃ r c, (⟨[⟨0, 4, [1, 2]⟩, ⟨1, 4, [3]⟩], ⟨4, none, 2, []⟩⟩ : partition).WriteByIndex 2
          [7, 8, 9] 0 = some r ∧
      (⟨[⟨0, 4, [1, 2]⟩, ⟨1, 4, [3]⟩], ⟨4, none, 2, []⟩⟩ : partition).list[0]? = some c ∧
      r.n = ([7, 8, 9] : List Byte).length ∧ r.err = none ∧
      r.buf.pool = (⟨[⟨0, 4, [1, 2]⟩, ⟨1, 4, [3]⟩], ⟨4, none, 2, []⟩⟩ : partition).pool ∧
      r.buf.list =
        (⟨[⟨0, 4, [1, 2]⟩, ⟨1, 4, [3]⟩], ⟨4, none, 2, []⟩⟩ : partition).list.set 0
          { c with data := [7, 8, 9] } ∧
      r.buf.list.length =
        (⟨[⟨0, 4, [1, 2]⟩, ⟨1, 4, [3]⟩], ⟨4, none, 2, []⟩⟩ : partition).list.length ∧
      (∀ j, j ≠ 0 → r.buf.list[j]? =
        (⟨[⟨0, 4, [1, 2]⟩, ⟨1, 4, [3]⟩], ⟨4, none, 2, []⟩⟩ : partition).list[j]?) ∧
      (r.buf.list[0]?).map memory.Bytes = some [7, 8, 9] :=
  ⟨by decide,
    WriteByIndex_in_place ⟨[⟨0, 4, [1, 2]⟩, ⟨1, 4, [3]⟩], ⟨4, none, 2, []⟩⟩ [7, 8, 9] 0 2
      (by decide) (by decide) (by decide) (by decide) (by decide)⟩

/-- `drained_head_popped_by_Read` on the chunks `[]`, `[5, 6]` with a
destination of one byte. -/
theorem drained_head_popped_by_Read_witness :
    ((⟨0, 4, []⟩ : memory).data = [] ∧ 0 < ([0] : List Byte).length) ∧
    ((⟨[⟨0, 4, []⟩, ⟨1, 4, [5, 6]⟩], ⟨4, none, 2, []⟩⟩ : partition).Read (3 + 1) [0] =
        (⟨[⟨1, 4, [5, 6]⟩], (⟨4, none, 2, []⟩ : Pool).Put ⟨0, 4, []⟩⟩ : partition).Read 3 [0] ∧
      (∃ r k, (⟨[⟨0, 4, []⟩, ⟨1, 4, [5, 6]⟩], ⟨4, none, 2, []⟩⟩ : partition).Read (3 + 1) [0]
          = some r ∧ k ≤ [(⟨1, 4, [5, 6]⟩ : memory)].length ∧
        r.buf.list.map memory.id = ([(⟨1, 4, [5, 6]⟩ : memory)].drop k).map memory.id ∧
        r.buf.pool.puts = (⟨4, none, 2, []⟩ : Pool).puts ++
          (⟨0, 4, []⟩ : memory).id :: ([(⟨1, 4, [5, 6]⟩ : memory)].take k).map memory.id) ∧
      (∀ f q w, (⟨[⟨0, 4, []⟩, ⟨1, 4, [5, 6]⟩], ⟨4, none, 2, []⟩⟩ : partition).Write f q
          = some w →
        w.buf.pool.puts = (⟨4, none, 2, []⟩ : Pool).puts ∧
        (⟨[⟨0, 4, []⟩, ⟨1, 4, [5, 6]⟩], ⟨4, none, 2, []⟩⟩ : partition).list.length
          ≤ w.buf.list.length ∧
        ∃ x, w.buf.list.head? = some { (⟨0, 4, []⟩ : memory) with data := x } ∧
          ([(⟨1, 4, [5, 6]⟩ : memory)] ≠ [] → x = [])) ∧
      (1 ≤ (⟨[⟨0, 4, []⟩, ⟨1, 4, [5, 6]⟩], ⟨4, none, 2, []⟩⟩ : partition).pool.N →
        ∀ f q, 2 * q.length + 2 ≤ f →
          ∃ w, (⟨[⟨0, 4, []⟩, ⟨1, 4, [5, 6]⟩], ⟨4, none, 2, []⟩⟩ : partition).Write f q
            = some w)) :=
  ⟨by decide,
    drained_head_popped_by_Read ⟨[⟨0, 4, []⟩, ⟨1, 4, [5, 6]⟩], ⟨4, none, 2, []⟩⟩
      ⟨0, 4, []⟩ [⟨1, 4, [5, 6]⟩] [0] 3 rfl rfl (by decide) (by decide)⟩

/-- `inner_chunks_are_full` at the state that `Write` of nine bytes to the
empty buffer over a pool of chunk capacity 4 reaches. -/
theorem inner_chunks_are_full_witness :
    (1 ≤ 4 ∧
      Reachable 4
        ⟨[⟨0, 4, [1, 2, 3, 4]⟩, ⟨1, 4, [5, 6, 7, 8]⟩, ⟨2, 4, [9]⟩], ⟨4, none, 3, []⟩⟩) ∧
    ((∀ c ∈ (⟨[⟨0, 4, [1, 2, 3, 4]⟩, ⟨1, 4, [5, 6, 7, 8]⟩, ⟨2, 4, [9]⟩],
          ⟨4, none, 3, []⟩⟩ : partition).list.dropLast.tail, c.data.length = 4) ∧
      (∀ c ∈ (⟨[⟨0, 4, [1, 2, 3, 4]⟩, ⟨1, 4, [5, 6, 7, 8]⟩, ⟨2, 4, [9]⟩],
          ⟨4, none, 3, []⟩⟩ : partition).list, c.N = 4 ∧ c.data.length ≤ 4) ∧
      (∀ fuel p r, 2 * p.length + 2 ≤ fuel →
        (⟨[⟨0, 4, [1, 2, 3, 4]⟩, ⟨1, 4, [5, 6, 7, 8]⟩, ⟨2, 4, [9]⟩],
          ⟨4, none, 3, []⟩⟩ : partition).Write fuel p = some r →
        ∀ c ∈ (r.buf.list.drop
            ((⟨[⟨0, 4, [1, 2, 3, 4]⟩, ⟨1, 4, [5, 6, 7, 8]⟩, ⟨2, 4, [9]⟩],
              ⟨4, none, 3, []⟩⟩ : partition).list.length - 1)).dropLast,
          c.data.length = 4)) :=
  ⟨⟨by decide,
      Reachable.write (emptyBuf 4) 20 [1, 2, 3, 4, 5, 6, 7, 8, 9]
        ⟨⟨[⟨0, 4, [1, 2, 3, 4]⟩, ⟨1, 4, [5, 6, 7, 8]⟩, ⟨2, 4, [9]⟩], ⟨4, none, 3, []⟩⟩, 9, none⟩
        (Reachable.init ⟨4, none, 0, []⟩ rfl) (by decide) (by decide)⟩,
    inner_chunks_are_full 4
      ⟨[⟨0, 4, [1, 2, 3, 4]⟩, ⟨1, 4, [5, 6, 7, 8]⟩, ⟨2, 4, [9]⟩], ⟨4, none, 3, []⟩⟩
      (by decide)
      (Reachable.write (emptyBuf 4) 20 [1, 2, 3, 4, 5, 6, 7, 8, 9]
        ⟨⟨[⟨0, 4, [1, 2, 3, 4]⟩, ⟨1, 4, [5, 6, 7, 8]⟩, ⟨2, 4, [9]⟩], ⟨4, none, 3, []⟩⟩, 9, none⟩
        (Reachable.init ⟨4, none, 0, []⟩ rfl) (by decide) (by decide))⟩

/-- `Write_runs_to_completion` over a pool of chunk capacity 0 that hands out
two more chunks. -/
theorem Write_runs_to_completion_witness :
    ((1 ≤ (⟨[], ⟨0, some 2, 0, []⟩⟩ : partition).pool.N ∨
        (⟨[], ⟨0, some 2, 0, []⟩⟩ : partition).pool.budget ≠ none) ∧
      2 * ([1] : List Byte).length +
        (⟨[], ⟨0, some 2, 0, []⟩⟩ : partition).pool.budget.getD 0 + 2 ≤ 6) ∧
    ∃ r, (⟨[], ⟨0, some 2, 0, []⟩⟩ : partition).Write 6 [1] = some r :=
  ⟨⟨Or.inr (by decide), by decide⟩,
    Write_runs_to_completion ⟨[], ⟨0, some 2, 0, []⟩⟩ [1] 6 (Or.inr (by decide)) (by decide)⟩

/-- `Write_pushes_no_empty_chunk` on a full last chunk over a pool of chunk
capacity 4 that hands out one more chunk, with six bytes of input. -/
theorem Write_pushes_no_empty_chunk_witness :
    (1 ≤ (⟨[⟨0, 4, [1, 2, 3, 4]⟩], ⟨4, some 1, 1, []⟩⟩ : partition).pool.N ∧
      2 * ([5, 6, 7, 8, 9, 10] : List Byte).length + 2 ≤ 14) ∧
    ∃ r more, (⟨[⟨0, 4, [1, 2, 3, 4]⟩], ⟨4, some 1, 1, []⟩⟩ : partition).Write 14
          [5, 6, 7, 8, 9, 10] = some r ∧
      r.buf.list = fillTail
          (⟨[⟨0, 4, [1, 2, 3, 4]⟩], ⟨4, some 1, 1, []⟩⟩ : partition).list
          [5, 6, 7, 8, 9, 10] ++ more ∧
      (fillTail (⟨[⟨0, 4, [1, 2, 3, 4]⟩], ⟨4, some 1, 1, []⟩⟩ : partition).list
          [5, 6, 7, 8, 9, 10]).length =
        (⟨[⟨0, 4, [1, 2, 3, 4]⟩], ⟨4, some 1, 1, []⟩⟩ : partition).list.length ∧
      (∀ c ∈ more, c.data ≠ []) ∧
      r.buf.pool.gets =
        (⟨[⟨0, 4, [1, 2, 3, 4]⟩], ⟨4, some 1, 1, []⟩⟩ : partition).pool.gets + more.length ∧
      r.n - min (tailGap (⟨[⟨0, 4, [1, 2, 3, 4]⟩], ⟨4, some 1, 1, []⟩⟩ : partition).list)
          ([5, 6, 7, 8, 9, 10] : List Byte).length ≤
        more.length * (⟨[⟨0, 4, [1, 2, 3, 4]⟩], ⟨4, some 1, 1, []⟩⟩ : partition).pool.N ∧
      (∀ m, r.n - min (tailGap (⟨[⟨0, 4, [1, 2, 3, 4]⟩], ⟨4, some 1, 1, []⟩⟩ : partition).list)
            ([5, 6, 7, 8, 9, 10] : List Byte).length ≤
          m * (⟨[⟨0, 4, [1, 2, 3, 4]⟩], ⟨4, some 1, 1, []⟩⟩ : partition).pool.N →
        more.length ≤ m) :=
  ⟨by decide,
    Write_pushes_no_empty_chunk ⟨[⟨0, 4, [1, 2, 3, 4]⟩], ⟨4, some 1, 1, []⟩⟩
      [5, 6, 7, 8, 9, 10] 14 (by decide) (by decide)⟩

/-- `Write_pool_failure` on a last chunk with one free byte over a pool of
chunk capacity 4 that hands out one more chunk, with seven bytes of input:
five bytes are written, then `Get` fails. -/
theorem Write_pool_failure_witness :
    ∃ r, (⟨[⟨0, 4, [1, 2, 3]⟩], ⟨4, some 1, 1, []⟩⟩ : partition).Write 16
          [4, 5, 6, 7, 8, 9, 10] = some r ∧
      r.err = some Err.poolErr ∧ r.n = 5 ∧ r.buf.list.length = 2 ∧
      r.buf.pool.budget = some 0 ∧ r.n < ([4, 5, 6, 7, 8, 9, 10] : List Byte).length ∧
      r.buf.content =
        (⟨[⟨0, 4, [1, 2, 3]⟩], ⟨4, some 1, 1, []⟩⟩ : partition).content ++
          ([4, 5, 6, 7, 8, 9, 10] : List Byte).take r.n := by
  obtain ⟨r, hr, he, hn, hl⟩ :=
    (Write_pool_failure ⟨[⟨0, 4, [1, 2, 3]⟩], ⟨4, some 1, 1, []⟩⟩
      [4, 5, 6, 7, 8, 9, 10] 16).2 1 rfl (by decide) (by decide) (by decide)
  obtain ⟨-, h2, h3, h4, -, -⟩ :=
    (Write_pool_failure ⟨[⟨0, 4, [1, 2, 3]⟩], ⟨4, some 1, 1, []⟩⟩
      [4, 5, 6, 7, 8, 9, 10] 16).1 r hr (by rw [he]; simp)
  exact ⟨r, hr, he, hn, hl, h2, h3, h4⟩

/-- `Write_only_grows` on the chunks `[1, 2, 3, 4]`, `[5]` with four bytes of input. -/
theorem Write_only_grows_witness :
    ∃ r, (⟨[⟨0, 4, [1, 2, 3, 4]⟩, ⟨1, 4, [5]⟩], ⟨4, none, 2, []⟩⟩ : partition).Write 10
          [6, 7, 8, 9] = some r ∧
      2 ≤ r.buf.list.length ∧
      r.buf.list[0]? = some ⟨0, 4, [1, 2, 3, 4]⟩ ∧
      (∃ x, r.buf.list[1]? = some ⟨1, 4, [5] ++ x⟩) ∧
      r.buf.pool.puts = [] := by
  obtain ⟨r, hr⟩ :=
    (Write_only_grows ⟨[⟨0, 4, [1, 2, 3, 4]⟩, ⟨1, 4, [5]⟩], ⟨4, none, 2, []⟩⟩
      [6, 7, 8, 9] 10).2 (by decide) (by decide)
  obtain ⟨h1, h2, h3, h4⟩ :=
    (Write_only_grows ⟨[⟨0, 4, [1, 2, 3, 4]⟩, ⟨1, 4, [5]⟩], ⟨4, none, 2, []⟩⟩
      [6, 7, 8, 9] 10).1 r hr
  exact ⟨r, hr, h1, h2 0 (by decide), h3 ⟨1, 4, [5]⟩ rfl, h4⟩

end Buffer
